import Mathlib

/-! SingleLinkedList (single-linked-list.h): embedding and verification

The container of `single-linked-list.h` is embedded over an explicit store:
the free store is a list of cells indexed by address (`new` appends a cell,
`delete` empties one) and the container objects live in a second list, indexed
by object identity.  Every member function is a function from stores to
`Except Fault` results; the faults are the assertion failures and the invalid
pointer accesses of the C++ program.
-/

namespace SLL

deriving instance DecidableEq for Except

/-- `struct Node`: a value and the link `next_node`.  A link is null (`none`) or
the address of a node of the free store (addresses are natural numbers): the
source only ever stores results of `new Node` and copies of other links into a
`next_node` field. -/
structure Node (α : Type) where
  value : α
  next_node : Option Nat
deriving DecidableEq, Repr

/-- A non-null `Node*`: the address `&head_` of the sentinel that lives inside
the container object `obj`, or a node of the free store. -/
inductive NodePtr where
  | head_ (obj : Nat)
  | node (a : Nat)
deriving DecidableEq, Repr

/-- `BasicIterator<ValueType>`: its only field is `Node* node_` (`none` is
`nullptr`).  The mutable and the read-only flavour differ in constness only. -/
structure BasicIterator where
  node_ : Option NodePtr
deriving DecidableEq, Repr

/-- The fields of one `SingleLinkedList` object: `head_.next_node` and `size_`.
The `value` field of the sentinel `head_` holds no element and is read by none
of the member functions. -/
structure SingleLinkedList where
  head_next_node : Option Nat
  size_ : Nat
deriving DecidableEq, Repr

/-- The store: free-store cells (`none` once deleted) and container objects. -/
structure Machine (α : Type) where
  heap : List (Option (Node α))
  objs : List SingleLinkedList
deriving DecidableEq, Repr

/-- Ways in which a run stops without a result. -/
inductive Fault where
  /-- an `assert` of the source fails (debug build) -/
  | assertion
  /-- a null pointer is dereferenced -/
  | null
  /-- an object that is not alive is accessed or deleted -/
  | dangling
  /-- the value field of a sentinel is read -/
  | sentinel
  /-- a loop ran longer than any loop over an acyclic chain of this store can -/
  | fuel
deriving DecidableEq, Repr

/-- `SIZE_MAX` of a 64-bit `size_t`. -/
def SIZE_MAX : Nat := 2 ^ 64 - 1

/-- `++size_`.  The counter counts nodes that each occupy storage of their own in
the address space that `size_t` spans, so the increment is taken without
wrap-around. -/
def size_inc (n : Nat) : Nat := n + 1

/-- `--size_` on `size_t`: decrementing zero wraps to `SIZE_MAX`. -/
def size_dec (n : Nat) : Nat := if n = 0 then SIZE_MAX else n - 1

/-- `assert(cond)`: checked unless the build defines `NDEBUG`. -/
def assert_ (NDEBUG : Bool) (cond : Bool) : Except Fault Unit :=
  if NDEBUG || cond then .ok () else .error .assertion

namespace Machine

variable {α : Type}

/-- The container object `l`. -/
def obj (m : Machine α) (l : Nat) : Except Fault SingleLinkedList :=
  match m.objs[l]? with
  | some o => .ok o
  | none => .error .dangling

/-- Overwrite the fields of the container object `l`. -/
def setObj (m : Machine α) (l : Nat) (o : SingleLinkedList) : Machine α :=
  { m with objs := m.objs.set l o }

/-- The node stored at address `a`. -/
def load (m : Machine α) (a : Nat) : Except Fault (Node α) :=
  match m.heap[a]? with
  | some (some n) => .ok n
  | _ => .error .dangling

/-- Read `p->next_node`. -/
def next_node (m : Machine α) : NodePtr → Except Fault (Option Nat)
  | .head_ l => do
    let o ← m.obj l
    pure o.head_next_node
  | .node a => do
    let n ← m.load a
    pure n.next_node

/-- Write `p->next_node = nx`. -/
def set_next_node (m : Machine α) (p : NodePtr) (nx : Option Nat) : Except Fault (Machine α) :=
  match p with
  | .head_ l => do
    let o ← m.obj l
    pure (m.setObj l { o with head_next_node := nx })
  | .node a => do
    let n ← m.load a
    pure { m with heap := m.heap.set a (some { n with next_node := nx }) }

/-- Read `p->value`. -/
def value (m : Machine α) : NodePtr → Except Fault α
  | .head_ _ => .error .sentinel
  | .node a => do
    let n ← m.load a
    pure n.value

/-- `new Node(value, next)`: the new node gets the next unused address. -/
def new_Node (m : Machine α) (value : α) (next : Option Nat) : Nat × Machine α :=
  (m.heap.length, { m with heap := m.heap ++ [some ⟨value, next⟩] })

/-- `delete p` for a non-null `p`. -/
def delete (m : Machine α) (a : Nat) : Except Fault (Machine α) := do
  let _ ← m.load a
  pure { m with heap := m.heap.set a none }

end Machine

/-- Dereference of a `Node*`: a null pointer has no target. -/
def target (p : Option NodePtr) : Except Fault NodePtr :=
  match p with
  | some q => .ok q
  | none => .error .null

/-- A `Node*` made from the content of a `next_node` field. -/
def ofLink (nx : Option Nat) : Option NodePtr := nx.map NodePtr.node

namespace BasicIterator

variable {α : Type}

/-- `node_ = node_->next_node`, the step shared by both increments. -/
def advance (m : Machine α) (it : BasicIterator) : Except Fault BasicIterator := do
  let p ← target it.node_
  let nx ← m.next_node p
  pure ⟨ofLink nx⟩

/-- `operator++()`: asserts `node_ != nullptr`, advances, returns the cursor. -/
def operator_preinc (NDEBUG : Bool) (m : Machine α) (it : BasicIterator) :
    Except Fault BasicIterator := do
  assert_ NDEBUG (it.node_ != none)
  it.advance m

/-- `operator++(int)`: no assertion; returns the old cursor `tmp` and the
advanced cursor. -/
def operator_postinc (m : Machine α) (it : BasicIterator) :
    Except Fault (BasicIterator × BasicIterator) := do
  let tmp : BasicIterator := ⟨it.node_⟩
  let it1 ← it.advance m
  pure (tmp, it1)

/-- `operator*()`: asserts `node_ != nullptr`, returns `node_->value`. -/
def operator_star (NDEBUG : Bool) (m : Machine α) (it : BasicIterator) : Except Fault α := do
  assert_ NDEBUG (it.node_ != none)
  let p ← target it.node_
  m.value p

end BasicIterator

section Container

variable {α : Type}

/-- `begin()` / `cbegin()`: cursor on `head_.next_node`. -/
def begin_ (m : Machine α) (this : Nat) : Except Fault BasicIterator := do
  let o ← m.obj this
  pure ⟨ofLink o.head_next_node⟩

/-- `end()` / `cend()`: cursor on `nullptr`. -/
def end_ : BasicIterator := ⟨none⟩

/-- `before_begin()` / `cbefore_begin()`: cursor on `&head_`. -/
def before_begin (this : Nat) : BasicIterator := ⟨some (.head_ this)⟩

/-- `GetSize()`. -/
def GetSize (m : Machine α) (this : Nat) : Except Fault Nat := do
  let o ← m.obj this
  pure o.size_

/-- `IsEmpty()`: `head_.next_node == nullptr`. -/
def IsEmpty (m : Machine α) (this : Nat) : Except Fault Bool := do
  let o ← m.obj this
  pure (o.head_next_node == none)

/-- The default constructor: a new object with `head_()` and `size_(0)`; the
result is the identity of the new object. -/
def construct (m : Machine α) : Nat × Machine α :=
  (m.objs.length, { m with objs := m.objs ++ [⟨none, 0⟩] })

/-- `swap(other)`: exchanges `size_` and `head_.next_node` of the two objects. -/
def swap (m : Machine α) (this other : Nat) : Except Fault (Machine α) := do
  let a ← m.obj this
  let b ← m.obj other
  pure ((m.setObj this b).setObj other a)

/-- `PushFront(value)`. -/
def PushFront (m : Machine α) (this : Nat) (value : α) : Except Fault (Machine α) := do
  let o ← m.obj this
  let (p, m1) := m.new_Node value o.head_next_node
  pure (m1.setObj this ⟨some p, size_inc o.size_⟩)

/-- `InsertAfter(pos, value)`: the result is the returned cursor and the store. -/
def InsertAfter (NDEBUG : Bool) (m : Machine α) (this : Nat) (pos : BasicIterator) (value : α) :
    Except Fault (BasicIterator × Machine α) := do
  assert_ NDEBUG (pos.node_ != none)
  if pos ≠ before_begin this then
    let p ← target pos.node_
    let nx ← m.next_node p
    let (new_node, m1) := m.new_Node value nx
    let m2 ← m1.set_next_node p (some new_node)
    let o ← m2.obj this
    pure (⟨some (.node new_node)⟩, m2.setObj this { o with size_ := size_inc o.size_ })
  else
    let m1 ← PushFront m this value
    let it ← begin_ m1 this
    pure (it, m1)

/-- The general branch of `InsertAfter` (taken when `pos != before_begin()`):
a new node behind `pos` is spliced in and `size_` is incremented. -/
def InsertAfter_splice (m : Machine α) (this : Nat) (pos : BasicIterator) (value : α) :
    Except Fault (BasicIterator × Machine α) := do
  let p ← target pos.node_
  let nx ← m.next_node p
  let (new_node, m1) := m.new_Node value nx
  let m2 ← m1.set_next_node p (some new_node)
  let o ← m2.obj this
  pure (⟨some (.node new_node)⟩, m2.setObj this { o with size_ := size_inc o.size_ })

/-- The branch of `InsertAfter` taken at the sentinel: `PushFront(value)`, then
a cursor on `head_.next_node`. -/
def InsertAfter_front (m : Machine α) (this : Nat) (value : α) :
    Except Fault (BasicIterator × Machine α) := do
  let m1 ← PushFront m this value
  let it ← begin_ m1 this
  pure (it, m1)

/-- `PopFront()`.  The guard is the one written in the source:
`assert(head_.next_node == nullptr)`. -/
def PopFront (NDEBUG : Bool) (m : Machine α) (this : Nat) : Except Fault (Machine α) := do
  let o ← m.obj this
  assert_ NDEBUG (o.head_next_node == none)
  let before_node := o.head_next_node
  let p ← target (ofLink before_node)
  let nx ← m.next_node p
  let m1 := m.setObj this ⟨nx, size_dec o.size_⟩
  match before_node with
  | some a => m1.delete a
  | none => pure m1

/-- `EraseAfter(pos)`: the result is the returned cursor and the store. -/
def EraseAfter (NDEBUG : Bool) (m : Machine α) (this : Nat) (pos : BasicIterator) :
    Except Fault (BasicIterator × Machine α) := do
  assert_ NDEBUG (pos.node_ != none)
  let before ← target pos.node_
  let victim ← m.next_node before
  let v ← target (ofLink victim)
  let after_item ← m.next_node v
  let m1 ← match victim with
    | some a => m.delete a
    | none => pure m
  let m2 ← m1.set_next_node before after_item
  let o ← m2.obj this
  let m3 := m2.setObj this { o with size_ := size_dec o.size_ }
  let r ← m3.next_node before
  pure (⟨ofLink r⟩, m3)

/-- The loop of `Clear()`: while `head_.next_node != nullptr`, unlink the first
node and delete it.  Each round deletes a live cell, so `heap.length + 1` rounds
always suffice. -/
def Clear_loop (this : Nat) : Nat → Machine α → Except Fault (Machine α)
  | 0, _ => .error .fuel
  | fuel + 1, m => do
    let o ← m.obj this
    match o.head_next_node with
    | none => pure m
    | some temp =>
      let n ← m.load temp
      let m1 := m.setObj this { o with head_next_node := n.next_node }
      let m2 ← m1.delete temp
      Clear_loop this fuel m2

/-- `Clear()`. -/
def Clear (m : Machine α) (this : Nat) : Except Fault (Machine α) := do
  let m1 ← Clear_loop this (m.heap.length + 1) m
  let o ← m1.obj this
  pure (m1.setObj this { o with size_ := 0 })

/-- End of the lifetime of the local object `temp` (the most recent object):
`~SingleLinkedList()` runs `Clear()`, then the object is gone. -/
def destroy (m : Machine α) (temp : Nat) : Except Fault (Machine α) := do
  let m1 ← Clear m temp
  pure { m1 with objs := m1.objs.dropLast }

/-- The range-for loop of `Init` over a `std::initializer_list`:
`t = temp.InsertAfter(t, item)` for each item in order. -/
def Init_loop_values (NDEBUG : Bool) (temp : Nat) :
    List α → BasicIterator → Machine α → Except Fault (BasicIterator × Machine α)
  | [], t, m => pure (t, m)
  | item :: rest, t, m => do
    let (t1, m1) ← InsertAfter NDEBUG m temp t item
    Init_loop_values NDEBUG temp rest t1 m1

/-- `Init(container)` for a `std::initializer_list<Type>`. -/
def Init_values (NDEBUG : Bool) (m : Machine α) (this : Nat) (values : List α) :
    Except Fault (Machine α) := do
  let (temp, m0) := construct m
  let t := before_begin temp
  let (_, m1) ← Init_loop_values NDEBUG temp values t m0
  let m2 ← swap m1 this temp
  destroy m2 temp

/-- The range-for loop of `Init` over another list: `it` runs from
`container.begin()` to `container.end()` by `operator++()`, `item` is `*it`. -/
def Init_loop_list (NDEBUG : Bool) (temp : Nat) :
    Nat → BasicIterator → BasicIterator → Machine α → Except Fault (BasicIterator × Machine α)
  | 0, _, _, _ => .error .fuel
  | fuel + 1, it, t, m =>
    if it ≠ end_ then do
      let item ← it.operator_star NDEBUG m
      let (t1, m1) ← InsertAfter NDEBUG m temp t item
      let it1 ← it.operator_preinc NDEBUG m1
      Init_loop_list NDEBUG temp fuel it1 t1 m1
    else pure (t, m)

/-- `Init(container)` for a `SingleLinkedList`. -/
def Init_list (NDEBUG : Bool) (m : Machine α) (this container : Nat) :
    Except Fault (Machine α) := do
  let (temp, m0) := construct m
  let t := before_begin temp
  let b ← begin_ m0 container
  let (_, m1) ← Init_loop_list NDEBUG temp (m.heap.length + 1) b t m0
  let m2 ← swap m1 this temp
  destroy m2 temp

/-- `SingleLinkedList(std::initializer_list<Type> values)`: `head_()`,
`size_(0)`, then `Init(values)`.  The result is the new object and the store. -/
def construct_values (NDEBUG : Bool) (m : Machine α) (values : List α) :
    Except Fault (Nat × Machine α) := do
  let (this, m0) := construct m
  let m1 ← Init_values NDEBUG m0 this values
  pure (this, m1)

/-- `SingleLinkedList(const SingleLinkedList& other)`: `head_()`, `size_(0)`,
then `Init(other)`. -/
def construct_copy (NDEBUG : Bool) (m : Machine α) (other : Nat) :
    Except Fault (Nat × Machine α) := do
  let (this, m0) := construct m
  let m1 ← Init_list NDEBUG m0 this other
  pure (this, m1)

/-- `operator=(rhs)`: nothing happens when `this == &rhs`; otherwise the local
`temp` is copy-constructed from `rhs`, swapped with `*this` and destroyed. -/
def operator_assign (NDEBUG : Bool) (m : Machine α) (this rhs : Nat) :
    Except Fault (Machine α) :=
  if this = rhs then pure m
  else do
    let (temp, m1) ← construct_copy NDEBUG m rhs
    let m2 ← swap m1 this temp
    destroy m2 temp

/-- `std::equal(first1, last1, first2)`: the three-iterator form, which walks
the first range and reads the second alongside. -/
def std_equal [DecidableEq α] (NDEBUG : Bool) (m : Machine α) :
    Nat → BasicIterator → BasicIterator → BasicIterator → Except Fault Bool
  | 0, _, _, _ => .error .fuel
  | fuel + 1, first1, last1, first2 =>
    if first1 ≠ last1 then do
      let a ← first1.operator_star NDEBUG m
      let b ← first2.operator_star NDEBUG m
      if ¬ (a = b) then pure false
      else do
        let f1 ← first1.operator_preinc NDEBUG m
        let f2 ← first2.operator_preinc NDEBUG m
        std_equal NDEBUG m fuel f1 last1 f2
    else pure true

/-- `operator==(lhs, rhs)`: `std::equal(lhs.begin(), lhs.end(), rhs.begin())`. -/
def operator_eq [DecidableEq α] (NDEBUG : Bool) (m : Machine α) (lhs rhs : Nat) :
    Except Fault Bool := do
  let b1 ← begin_ m lhs
  let b2 ← begin_ m rhs
  std_equal NDEBUG m (m.heap.length + 1) b1 end_ b2

/-- `operator!=(lhs, rhs)`: `!(lhs == rhs)`. -/
def operator_ne [DecidableEq α] (NDEBUG : Bool) (m : Machine α) (lhs rhs : Nat) :
    Except Fault Bool := do
  let r ← operator_eq NDEBUG m lhs rhs
  pure (!r)

/-- `std::lexicographical_compare(first1, last1, first2, last2)`. -/
def std_lexicographical_compare [LT α] [DecidableRel (fun a b : α => a < b)]
    (NDEBUG : Bool) (m : Machine α) :
    Nat → BasicIterator → BasicIterator → BasicIterator → BasicIterator → Except Fault Bool
  | 0, _, _, _, _ => .error .fuel
  | fuel + 1, first1, last1, first2, last2 =>
    if first1 ≠ last1 ∧ first2 ≠ last2 then do
      let a ← first1.operator_star NDEBUG m
      let b ← first2.operator_star NDEBUG m
      if a < b then pure true
      else if b < a then pure false
      else do
        let f1 ← first1.operator_preinc NDEBUG m
        let f2 ← first2.operator_preinc NDEBUG m
        std_lexicographical_compare NDEBUG m fuel f1 last1 f2 last2
    else pure (decide (first1 = last1) && decide (first2 ≠ last2))

/-- `operator<(lhs, rhs)`. -/
def operator_lt [LT α] [DecidableRel (fun a b : α => a < b)]
    (NDEBUG : Bool) (m : Machine α) (lhs rhs : Nat) : Except Fault Bool := do
  let b1 ← begin_ m lhs
  let b2 ← begin_ m rhs
  std_lexicographical_compare NDEBUG m (m.heap.length + 1) b1 end_ b2 end_

/-- `operator>(lhs, rhs)`: the same comparison with the ranges exchanged. -/
def operator_gt [LT α] [DecidableRel (fun a b : α => a < b)]
    (NDEBUG : Bool) (m : Machine α) (lhs rhs : Nat) : Except Fault Bool := do
  let b2 ← begin_ m rhs
  let b1 ← begin_ m lhs
  std_lexicographical_compare NDEBUG m (m.heap.length + 1) b2 end_ b1 end_

/-- `operator<=(lhs, rhs)`: `!(lhs > rhs)`. -/
def operator_le [LT α] [DecidableRel (fun a b : α => a < b)]
    (NDEBUG : Bool) (m : Machine α) (lhs rhs : Nat) : Except Fault Bool := do
  let r ← operator_gt NDEBUG m lhs rhs
  pure (!r)

/-- `operator>=(lhs, rhs)`: `!(lhs < rhs)`. -/
def operator_ge [LT α] [DecidableRel (fun a b : α => a < b)]
    (NDEBUG : Bool) (m : Machine α) (lhs rhs : Nat) : Except Fault Bool := do
  let r ← operator_lt NDEBUG m lhs rhs
  pure (!r)

/-- Iteration `for (it = first; it != last; ++it)` collecting `*it`. -/
def iterate (NDEBUG : Bool) (m : Machine α) :
    Nat → BasicIterator → BasicIterator → Except Fault (List α)
  | 0, _, _ => .error .fuel
  | fuel + 1, it, last =>
    if it ≠ last then do
      let v ← it.operator_star NDEBUG m
      let it1 ← it.operator_preinc NDEBUG m
      let rest ← iterate NDEBUG m fuel it1 last
      pure (v :: rest)
    else pure []

/-- The element sequence of the list `this`: what iterating from `begin()` to
`end()` yields. -/
def elements (NDEBUG : Bool) (m : Machine α) (this : Nat) : Except Fault (List α) := do
  let b ← begin_ m this
  iterate NDEBUG m (m.heap.length + 1) b end_

end Container

/-! ## Well-formed lists -/

section Spec

variable {α : Type}

/-- The chain of nodes that starts at link `p`: `cs` lists, in order, the
address and the value of each node, and the last node has a null link. -/
def Chain (h : List (Option (Node α))) : Option Nat → List (Nat × α) → Prop
  | p, [] => p = none
  | p, c :: cs => p = some c.1 ∧ ∃ nx, h[c.1]? = some (some ⟨c.2, nx⟩) ∧ Chain h nx cs

/-- Object `l` of the store is a list with nodes `cs`: the chain from its
`head_.next_node` is `cs` and `size_` is the number of nodes. -/
def IsList (m : Machine α) (l : Nat) (cs : List (Nat × α)) : Prop :=
  ∃ o, m.objs[l]? = some o ∧ Chain m.heap o.head_next_node cs ∧ o.size_ = cs.length

/-- The cursor on position `k` of a list with nodes `cs`: position `0` is
`before_begin()`, position `k + 1` is the cursor on the `k`-th node. -/
def cursorAt (l : Nat) (cs : List (Nat × α)) : Nat → BasicIterator
  | 0 => before_begin l
  | k + 1 => ⟨(cs[k]?).map fun c => NodePtr.node c.1⟩

end Spec

/-! ## Auxiliary notions for the proofs -/

section Aux

variable {α : Type}

/-- A segment of a chain: from link `p` through the nodes `cs`, the last of
which has link `q` (for an empty segment `p` is `q`). -/
def Seg (h : List (Option (Node α))) : Option Nat → List (Nat × α) → Option Nat → Prop
  | p, [], q => p = q
  | p, c :: cs, q => p = some c.1 ∧ ∃ nx, h[c.1]? = some (some ⟨c.2, nx⟩) ∧ Seg h nx cs q

/-- The addresses of a chain. -/
def addrs (cs : List (Nat × α)) : List Nat := cs.map Prod.fst

/-- What a member function called on list `l` (with nodes `cs`) may touch: the
object `l` itself, the cells of its own nodes, and cells allocated by the call. -/
def Footprint (m m2 : Machine α) (l : Nat) (cs : List (Nat × α)) : Prop :=
  m2.objs.length = m.objs.length ∧ (∀ j, j ≠ l → m2.objs[j]? = m.objs[j]?) ∧
  m.heap.length ≤ m2.heap.length ∧
  ∀ a, a < m.heap.length → a ∉ addrs cs → m2.heap[a]? = m.heap[a]?

/-- A call on list `l` turns its nodes `cs` into `cs2`, stays inside its
footprint, and takes new nodes only from cells allocated by the call. -/
def Updates (m m2 : Machine α) (l : Nat) (cs cs2 : List (Nat × α)) : Prop :=
  IsList m2 l cs2 ∧ Footprint m m2 l cs ∧ ∀ a ∈ addrs cs2, a ∈ addrs cs ∨ m.heap.length ≤ a

end Aux

section CompareAux

variable {α : Type}

/-- What the three-iterator `std::equal` computes on two value sequences: it
stops at the end of the first one and reads past the end of a shorter second. -/
def equal3 [DecidableEq α] (NDEBUG : Bool) : List α → List α → Except Fault Bool
  | [], _ => .ok true
  | _ :: _, [] => .error (if NDEBUG then .null else .assertion)
  | a :: as, b :: bs => if a = b then equal3 NDEBUG as bs else .ok false

/-- What `std::lexicographical_compare` computes on two value sequences. -/
def lexCompare [LT α] [DecidableRel (fun a b : α => a < b)] : List α → List α → Bool
  | [], [] => false
  | [], _ :: _ => true
  | _ :: _, [] => false
  | a :: as, b :: bs => if a < b then true else if b < a then false else lexCompare as bs

/-- Lexicographic order in the words of the specification: at the first
differing position `k` the element of `A` is smaller, or `A` is a proper
prefix of `B`. -/
def LexLess [LT α] (A B : List α) : Prop :=
  ∃ k, A.take k = B.take k ∧
    ((k = A.length ∧ k < B.length) ∨ ∃ a b, A[k]? = some a ∧ B[k]? = some b ∧ a < b)

end CompareAux

/-! ## Calls and reachable stores -/

section Calls

variable {α : Type}

/-- The mutating member functions of one list. -/
inductive Op (α : Type) where
  | pushFront (value : α)
  | insertAfter (pos : BasicIterator) (value : α)
  | eraseAfter (pos : BasicIterator)
  | popFront
  | clear

/-- Run a mutating member function on the list `this`; a returned cursor is
dropped. -/
def Op.run (NDEBUG : Bool) (m : Machine α) (this : Nat) : Op α → Except Fault (Machine α)
  | .pushFront value => PushFront m this value
  | .insertAfter pos value => do
    let (_, m2) ← InsertAfter NDEBUG m this pos value
    pure m2
  | .eraseAfter pos => do
    let (_, m2) ← EraseAfter NDEBUG m this pos
    pure m2
  | .popFront => PopFront NDEBUG m this
  | .clear => Clear m this

/-- The documented precondition of a member function on a list with nodes `cs`:
a position of this list for `InsertAfter`, a position with a following node for
`EraseAfter`, a non-empty list and a build without assertions for `PopFront`. -/
def Op.Pre (NDEBUG : Bool) (this : Nat) (cs : List (Nat × α)) : Op α → Prop
  | .pushFront _ => True
  | .insertAfter pos _ => ∃ k, k ≤ cs.length ∧ pos = cursorAt this cs k
  | .eraseAfter pos => ∃ k, k < cs.length ∧ pos = cursorAt this cs k
  | .popFront => cs ≠ [] ∧ NDEBUG = true
  | .clear => True

/-- A call: a member function on list `l`, or `a.swap(b)`. -/
inductive Call (α : Type) where
  | op (l : Nat) (o : Op α)
  | swap (a b : Nat)

/-- Run a call. -/
def Call.run (NDEBUG : Bool) (m : Machine α) : Call α → Except Fault (Machine α)
  | .op l o => o.run NDEBUG m l
  | .swap a b => SLL.swap m a b

/-- The documented precondition of a call. -/
def Call.Pre (NDEBUG : Bool) (m : Machine α) : Call α → Prop
  | .op l o => ∃ cs, IsList m l cs ∧ o.Pre NDEBUG l cs
  | .swap a b => a < m.objs.length ∧ b < m.objs.length

/-- The stores reached from `n` default-constructed lists by finitely many
calls, each given its precondition. -/
inductive Reachable (NDEBUG : Bool) : Machine α → Prop where
  | init (n : Nat) : Reachable NDEBUG ⟨[], List.replicate n ⟨none, 0⟩⟩
  | step {m m2 : Machine α} (c : Call α) :
      Reachable NDEBUG m → c.Pre NDEBUG m → c.run NDEBUG m = .ok m2 → Reachable NDEBUG m2

/-- Every object is a list and no two lists share a node. -/
def Inv (m : Machine α) : Prop :=
  (∀ l, l < m.objs.length → ∃ cs, IsList m l cs) ∧
  ∀ l j cs ds, l ≠ j → IsList m l cs → IsList m j ds → ∀ a ∈ addrs cs, a ∉ addrs ds

end Calls

/-! ## Basic facts -/

section Basics

variable {α β : Type}

@[simp] theorem ok_bind (a : α) (f : α → Except Fault β) : (Except.ok a >>= f) = f a := rfl

@[simp] theorem error_bind (e : Fault) (f : α → Except Fault β) :
    ((Except.error e : Except Fault α) >>= f) = Except.error e := rfl

@[simp] theorem pure_eq_ok (a : α) : (pure a : Except Fault α) = Except.ok a := rfl

@[simp] theorem chain_nil (h : List (Option (Node α))) (p : Option Nat) :
    Chain h p [] ↔ p = none := by
  simp [Chain]

@[simp] theorem chain_cons (h : List (Option (Node α))) (p : Option Nat) (c : Nat × α)
    (cs : List (Nat × α)) :
    Chain h p (c :: cs) ↔ p = some c.1 ∧ ∃ nx, h[c.1]? = some (some ⟨c.2, nx⟩) ∧ Chain h nx cs := by
  simp [Chain]

/-- The addresses of the nodes of a chain. -/
theorem chain_lt {h : List (Option (Node α))} :
    ∀ {cs : List (Nat × α)} {p : Option Nat}, Chain h p cs → ∀ c ∈ cs, c.1 < h.length
  | [], _, _, c, hc => by simp at hc
  | d :: ds, p, hch, c, hc => by
    obtain ⟨-, nx, hcell, hrest⟩ := (chain_cons h p d ds).1 hch
    rcases List.mem_cons.1 hc with rfl | hc
    · exact (List.getElem?_eq_some.1 hcell).1
    · exact chain_lt hrest c hc

/-- A chain is determined by the store and its first link. -/
theorem chain_det {h : List (Option (Node α))} :
    ∀ {cs ds : List (Nat × α)} {p : Option Nat}, Chain h p cs → Chain h p ds → cs = ds
  | [], [], _, _, _ => rfl
  | [], d :: ds, p, h1, h2 => by
    have := (chain_nil h p).1 h1
    have := ((chain_cons h p d ds).1 h2).1
    simp_all
  | c :: cs, [], p, h1, h2 => by
    have := (chain_nil h p).1 h2
    have := ((chain_cons h p c cs).1 h1).1
    simp_all
  | c :: cs, d :: ds, p, h1, h2 => by
    obtain ⟨hp1, nx1, hc1, hr1⟩ := (chain_cons h p c cs).1 h1
    obtain ⟨hp2, nx2, hc2, hr2⟩ := (chain_cons h p d ds).1 h2
    have ha : c.1 = d.1 := by simpa [hp1] using hp2
    rw [ha, hc2] at hc1
    have hn : d.2 = c.2 ∧ nx2 = nx1 := by simpa [Node.mk.injEq] using hc1
    have hcd : c = d := Prod.ext ha hn.1.symm
    rw [hn.2] at hr2
    rw [hcd, chain_det hr1 hr2]

/-- Allocation keeps every chain. -/
theorem chain_append {h : List (Option (Node α))} (x : List (Option (Node α))) :
    ∀ {cs : List (Nat × α)} {p : Option Nat}, Chain h p cs → Chain (h ++ x) p cs
  | [], _, hch => by simpa using hch
  | c :: cs, p, hch => by
    obtain ⟨hp, nx, hcell, hrest⟩ := (chain_cons h p c cs).1 hch
    refine (chain_cons _ p c cs).2 ⟨hp, nx, ?_, chain_append x hrest⟩
    rw [List.getElem?_append_left (List.getElem?_eq_some.1 hcell).1]
    exact hcell

/-- Writing a cell outside a chain keeps the chain. -/
theorem chain_set {h : List (Option (Node α))} (a : Nat) (v : Option (Node α)) :
    ∀ {cs : List (Nat × α)} {p : Option Nat}, Chain h p cs → a ∉ cs.map Prod.fst →
      Chain (h.set a v) p cs
  | [], _, hch, _ => by simpa using hch
  | c :: cs, p, hch, hna => by
    obtain ⟨hp, nx, hcell, hrest⟩ := (chain_cons h p c cs).1 hch
    simp only [List.map_cons, List.mem_cons, not_or] at hna
    refine (chain_cons _ p c cs).2 ⟨hp, nx, ?_, chain_set a v hrest hna.2⟩
    rw [List.getElem?_set_ne hna.1]
    exact hcell

/-- Chains that agree with the store on their cells carry over to any store
that agrees with it there. -/
theorem chain_congr {h h2 : List (Option (Node α))} :
    ∀ {cs : List (Nat × α)} {p : Option Nat}, Chain h p cs →
      (∀ c ∈ cs, h2[c.1]? = h[c.1]?) → Chain h2 p cs
  | [], _, hch, _ => by simpa using hch
  | c :: cs, p, hch, hag => by
    obtain ⟨hp, nx, hcell, hrest⟩ := (chain_cons h p c cs).1 hch
    refine (chain_cons _ p c cs).2 ⟨hp, nx, ?_, chain_congr hrest ?_⟩
    · rw [hag c (List.mem_cons_self _ _)]
      exact hcell
    · intro d hd
      exact hag d (List.mem_cons_of_mem _ hd)

/-- The part of a chain behind a given node is the chain from that node's link. -/
theorem chain_split {h : List (Option (Node α))} :
    ∀ {pre suf : List (Nat × α)} {p : Option Nat}, Chain h p (pre ++ suf) →
      ∃ q, Chain h q suf
  | [], _, p, hch => ⟨p, by simpa using hch⟩
  | c :: pre, suf, p, hch => by
    obtain ⟨-, nx, -, hrest⟩ := (chain_cons h p c (pre ++ suf)).1 hch
    exact chain_split hrest

/-- No node occurs twice in a chain. -/
theorem chain_nodup {h : List (Option (Node α))} :
    ∀ {cs : List (Nat × α)} {p : Option Nat}, Chain h p cs → (cs.map Prod.fst).Nodup
  | [], _, _ => by simp
  | c :: cs, p, hch => by
    obtain ⟨hp, nx, hcell, hrest⟩ := (chain_cons h p c cs).1 hch
    rw [List.map_cons, List.nodup_cons]
    refine ⟨?_, chain_nodup hrest⟩
    intro hmem
    obtain ⟨d, hd, hda⟩ := List.mem_map.1 hmem
    obtain ⟨pre, suf, hsplit⟩ := List.append_of_mem hd
    rw [hsplit] at hrest
    obtain ⟨q, hq⟩ := chain_split hrest
    obtain ⟨hq1, nx2, hcell2, hrest2⟩ := (chain_cons h q d suf).1 hq
    rw [hda, hcell] at hcell2
    have hn : c.2 = d.2 ∧ nx = nx2 := by simpa [Node.mk.injEq] using hcell2
    rw [← hn.2] at hrest2
    have := chain_det hrest hrest2
    have hlen := congrArg List.length this
    simp at hlen
    omega

/-- A chain has no more nodes than the store has cells. -/
theorem chain_length_le {h : List (Option (Node α))} {cs : List (Nat × α)} {p : Option Nat}
    (hch : Chain h p cs) : cs.length ≤ h.length := by
  have hnd := chain_nodup hch
  have hsub : cs.map Prod.fst ⊆ List.range h.length := by
    intro a ha
    obtain ⟨c, hc, rfl⟩ := List.mem_map.1 ha
    exact List.mem_range.2 (chain_lt hch c hc)
  have := (List.Nodup.subperm hnd hsub).length_le
  simpa using this

end Basics

/-! ## Cursors and iteration -/

section Cursors

variable {α : Type}

theorem obj_of_get {m : Machine α} {l : Nat} {o : SingleLinkedList} (h : m.objs[l]? = some o) :
    m.obj l = .ok o := by
  simp [Machine.obj, h]

theorem load_of_get {m : Machine α} {a : Nat} {n : Node α} (h : m.heap[a]? = some (some n)) :
    m.load a = .ok n := by
  simp [Machine.load, h]

theorem star_node (nd : Bool) {m : Machine α} {a : Nat} {n : Node α}
    (h : m.heap[a]? = some (some n)) :
    BasicIterator.operator_star nd m ⟨some (.node a)⟩ = .ok n.value := by
  simp [BasicIterator.operator_star, assert_, target, Machine.value, load_of_get h]

theorem preinc_node (nd : Bool) {m : Machine α} {a : Nat} {n : Node α}
    (h : m.heap[a]? = some (some n)) :
    BasicIterator.operator_preinc nd m ⟨some (.node a)⟩ = .ok ⟨ofLink n.next_node⟩ := by
  simp [BasicIterator.operator_preinc, BasicIterator.advance, assert_, target,
    Machine.next_node, load_of_get h]

theorem star_null (nd : Bool) (m : Machine α) :
    BasicIterator.operator_star nd m ⟨none⟩ = .error (if nd then .null else .assertion) := by
  cases nd <;> simp [BasicIterator.operator_star, assert_, target]

theorem preinc_null (nd : Bool) (m : Machine α) :
    BasicIterator.operator_preinc nd m ⟨none⟩ = .error (if nd then .null else .assertion) := by
  cases nd <;> simp [BasicIterator.operator_preinc, BasicIterator.advance, assert_, target]

theorem ofLink_some_ne_end (a : Nat) : (⟨ofLink (some a)⟩ : BasicIterator) ≠ end_ := by
  simp [ofLink, end_]

/-- Iterating a chain yields its values in order. -/
theorem iterate_chain (nd : Bool) (m : Machine α) :
    ∀ (cs : List (Nat × α)) (p : Option Nat) (fuel : Nat), Chain m.heap p cs →
      cs.length < fuel → iterate nd m fuel ⟨ofLink p⟩ end_ = .ok (cs.map Prod.snd)
  | [], p, fuel, hch, hf => by
    obtain ⟨f, rfl⟩ : ∃ f, fuel = f + 1 := ⟨fuel - 1, by simp at hf; omega⟩
    have hp : p = none := by simpa using hch
    simp [iterate, hp, ofLink, end_]
  | c :: cs, p, fuel, hch, hf => by
    obtain ⟨f, rfl⟩ : ∃ f, fuel = f + 1 := ⟨fuel - 1, by simp at hf; omega⟩
    obtain ⟨hp, nx, hcell, hrest⟩ := (chain_cons _ p c cs).1 hch
    have ih := iterate_chain nd m cs nx f hrest (by simp at hf; omega)
    subst hp
    rw [iterate, if_pos (ofLink_some_ne_end _)]
    simp only [ofLink, Option.map_some']
    rw [star_node nd hcell, preinc_node nd hcell]
    simp only [ok_bind]
    rw [ih]
    simp

theorem elements_of_isList (nd : Bool) {m : Machine α} {l : Nat} {cs : List (Nat × α)}
    (h : IsList m l cs) : elements nd m l = .ok (cs.map Prod.snd) := by
  obtain ⟨o, ho, hch, -⟩ := h
  simp only [elements, begin_, obj_of_get ho, ok_bind, pure_eq_ok]
  exact iterate_chain nd m cs _ _ hch (Nat.lt_succ_of_le (chain_length_le hch))

theorem getSize_of_isList {m : Machine α} {l : Nat} {cs : List (Nat × α)}
    (h : IsList m l cs) : GetSize m l = .ok cs.length := by
  obtain ⟨o, ho, -, hsz⟩ := h
  simp [GetSize, obj_of_get ho, hsz]

end Cursors

/-! ## Segments and frames -/

section Frames

variable {α : Type}

@[simp] theorem seg_nil (h : List (Option (Node α))) (p q : Option Nat) :
    Seg h p [] q ↔ p = q := by
  simp [Seg]

@[simp] theorem seg_cons (h : List (Option (Node α))) (p q : Option Nat) (c : Nat × α)
    (cs : List (Nat × α)) :
    Seg h p (c :: cs) q ↔
      p = some c.1 ∧ ∃ nx, h[c.1]? = some (some ⟨c.2, nx⟩) ∧ Seg h nx cs q := by
  simp [Seg]

/-- A chain splits into a segment and the chain behind it. -/
theorem chain_append_iff (h : List (Option (Node α))) :
    ∀ (pre suf : List (Nat × α)) (p : Option Nat),
      Chain h p (pre ++ suf) ↔ ∃ q, Seg h p pre q ∧ Chain h q suf
  | [], suf, p => by simp
  | c :: pre, suf, p => by
    simp only [List.cons_append, chain_cons, seg_cons, chain_append_iff h pre suf]
    constructor
    · rintro ⟨hp, nx, hcell, q, hseg, hch⟩
      exact ⟨q, ⟨hp, nx, hcell, hseg⟩, hch⟩
    · rintro ⟨q, ⟨hp, nx, hcell, hseg⟩, hch⟩
      exact ⟨hp, nx, hcell, q, hseg, hch⟩

theorem seg_congr {h h2 : List (Option (Node α))} :
    ∀ {cs : List (Nat × α)} {p q : Option Nat}, Seg h p cs q →
      (∀ c ∈ cs, h2[c.1]? = h[c.1]?) → Seg h2 p cs q
  | [], _, _, hs, _ => by simpa using hs
  | c :: cs, p, q, hs, hag => by
    obtain ⟨hp, nx, hcell, hrest⟩ := (seg_cons h p q c cs).1 hs
    refine (seg_cons _ p q c cs).2 ⟨hp, nx, ?_, seg_congr hrest ?_⟩
    · rw [hag c (List.mem_cons_self _ _)]
      exact hcell
    · intro d hd
      exact hag d (List.mem_cons_of_mem _ hd)

/-- A segment that ends in a node: the last node and its link. -/
theorem seg_concat (h : List (Option (Node α))) :
    ∀ (pre : List (Nat × α)) (c : Nat × α) (p q : Option Nat),
      Seg h p (pre ++ [c]) q ↔
        Seg h p pre (some c.1) ∧ h[c.1]? = some (some ⟨c.2, q⟩)
  | [], c, p, q => by
    simp only [List.nil_append, seg_cons, seg_nil]
    constructor
    · rintro ⟨hp, nx, hcell, rfl⟩
      exact ⟨hp, hcell⟩
    · rintro ⟨hp, hcell⟩
      exact ⟨hp, q, hcell, rfl⟩
  | d :: pre, c, p, q => by
    simp only [List.cons_append, seg_cons, seg_concat h pre c]
    constructor
    · rintro ⟨hp, nx, hcell, hseg, hlast⟩
      exact ⟨⟨hp, nx, hcell, hseg⟩, hlast⟩
    · rintro ⟨⟨hp, nx, hcell, hseg⟩, hlast⟩
      exact ⟨hp, nx, hcell, hseg, hlast⟩

theorem footprint_refl (m : Machine α) (l : Nat) (cs : List (Nat × α)) : Footprint m m l cs :=
  ⟨rfl, fun _ _ => rfl, le_rfl, fun _ _ _ => rfl⟩

/-- Frame rule: a list whose nodes are disjoint from the footprint of a call on
another list is left as it was. -/
theorem isList_frame {m m2 : Machine α} {l j : Nat} {cs ds : List (Nat × α)}
    (hf : Footprint m m2 l cs) (hj : IsList m j ds) (hne : j ≠ l)
    (hdis : ∀ a ∈ addrs ds, a ∉ addrs cs) : IsList m2 j ds := by
  obtain ⟨o, ho, hch, hsz⟩ := hj
  obtain ⟨-, hobjs, -, hheap⟩ := hf
  refine ⟨o, by rw [hobjs j hne]; exact ho, chain_congr hch ?_, hsz⟩
  intro c hc
  exact hheap c.1 (chain_lt hch c hc) (hdis c.1 (List.mem_map_of_mem _ hc))

theorem isList_det {m : Machine α} {l : Nat} {cs ds : List (Nat × α)}
    (h1 : IsList m l cs) (h2 : IsList m l ds) : cs = ds := by
  obtain ⟨o, ho, hch, -⟩ := h1
  obtain ⟨o2, ho2, hch2, -⟩ := h2
  rw [ho] at ho2
  cases ho2
  exact chain_det hch hch2

theorem isList_lt {m : Machine α} {l : Nat} {cs : List (Nat × α)} (h : IsList m l cs) :
    l < m.objs.length := by
  obtain ⟨o, ho, -, -⟩ := h
  exact (List.getElem?_eq_some.1 ho).1

theorem isList_addr_lt {m : Machine α} {l : Nat} {cs : List (Nat × α)} (h : IsList m l cs) :
    ∀ a ∈ addrs cs, a < m.heap.length := by
  obtain ⟨o, -, hch, -⟩ := h
  intro a ha
  obtain ⟨c, hc, rfl⟩ := List.mem_map.1 ha
  exact chain_lt hch c hc

end Frames

/-! ## The member functions on well-formed lists -/

section Operations

variable {α : Type}

theorem pushFront_updates {m : Machine α} {l : Nat} {cs : List (Nat × α)} (x : α)
    (h : IsList m l cs) :
    ∃ m2, PushFront m l x = .ok m2 ∧ Updates m m2 l cs ((m.heap.length, x) :: cs) := by
  obtain ⟨o, ho, hch, hsz⟩ := h
  have hl : l < m.objs.length := (List.getElem?_eq_some.1 ho).1
  refine ⟨_, by simp [PushFront, obj_of_get ho, Machine.new_Node]; rfl, ?_, ?_, ?_⟩
  · refine ⟨⟨some m.heap.length, size_inc o.size_⟩, ?_, ?_, ?_⟩
    · simp [Machine.setObj, hl]
    · simp only [Machine.setObj, chain_cons, true_and]
      exact ⟨o.head_next_node, by simp, chain_append _ hch⟩
    · simp [size_inc, hsz]
  · refine ⟨by simp [Machine.setObj], ?_, by simp [Machine.setObj], ?_⟩
    · intro j hj
      simp [Machine.setObj, List.getElem?_set_ne (Ne.symm hj)]
    · intro a ha _
      simp [Machine.setObj, List.getElem?_append_left ha]
  · intro a ha
    simp only [addrs, List.map_cons, List.mem_cons] at ha
    rcases ha with rfl | ha
    · exact Or.inr le_rfl
    · exact Or.inl ha

theorem insertAfter_head (nd : Bool) {m : Machine α} {l : Nat} {cs : List (Nat × α)} (x : α)
    (h : IsList m l cs) :
    ∃ m2, InsertAfter nd m l (before_begin l) x = .ok (⟨some (.node m.heap.length)⟩, m2) ∧
      PushFront m l x = .ok m2 ∧ Updates m m2 l cs ((m.heap.length, x) :: cs) := by
  obtain ⟨m2, hpush, hup⟩ := pushFront_updates x h
  refine ⟨m2, ?_, hpush, hup⟩
  obtain ⟨o, ho, hch, -⟩ := hup.1
  have hhead : o.head_next_node = some m.heap.length := by
    simpa using ((chain_cons _ _ _ _).1 hch).1
  simp [InsertAfter, assert_, before_begin, hpush, begin_, obj_of_get ho, hhead, ofLink]

theorem insertAfter_node (nd : Bool) {m : Machine α} {l : Nat} {pre suf : List (Nat × α)}
    {a : Nat} {v : α} (x : α) (h : IsList m l (pre ++ (a, v) :: suf)) :
    ∃ m2, InsertAfter nd m l ⟨some (.node a)⟩ x = .ok (⟨some (.node m.heap.length)⟩, m2) ∧
      Updates m m2 l (pre ++ (a, v) :: suf) (pre ++ (a, v) :: (m.heap.length, x) :: suf) := by
  have hnd := h
  obtain ⟨o, ho, hch, hsz⟩ := h
  have hl : l < m.objs.length := (List.getElem?_eq_some.1 ho).1
  have hnodup := chain_nodup hch
  have hlt := chain_lt hch
  obtain ⟨q, hseg, hq⟩ := (chain_append_iff _ _ _ _).1 hch
  obtain ⟨hqa, nx, hcell, hsuf⟩ := (chain_cons _ _ _ _).1 hq
  simp only at hqa hcell
  have ha : a < m.heap.length := (List.getElem?_eq_some.1 hcell).1
  have hcell1 : (m.heap ++ [some (Node.mk x nx)])[a]? = some (some ⟨v, nx⟩) := by
    rw [List.getElem?_append_left ha]; exact hcell
  let hp : List (Option (Node α)) :=
    (m.heap ++ [some (Node.mk x nx)]).set a (some (Node.mk v (some m.heap.length)))
  have hpa : hp[a]? = some (some ⟨v, some m.heap.length⟩) := by
    have hlen : a < (m.heap ++ [some (Node.mk x nx)]).length := by
      simp only [List.length_append, List.length_singleton]; omega
    simp only [hp]
    rw [List.getElem?_set_self hlen]
  have hpn : hp[m.heap.length]? = some (some ⟨x, nx⟩) := by
    simp [hp, List.getElem?_set_ne (Nat.ne_of_lt ha)]
  have hpo : ∀ b, b < m.heap.length → b ≠ a → hp[b]? = m.heap[b]? := by
    intro b hb hba
    simp [hp, List.getElem?_set_ne (Ne.symm hba), List.getElem?_append_left hb]
  rw [List.map_append, List.map_cons, List.nodup_append] at hnodup
  obtain ⟨-, hnd2, hdisj⟩ := hnodup
  rw [List.nodup_cons] at hnd2
  refine ⟨⟨hp, m.objs.set l { o with size_ := size_inc o.size_ }⟩, ?_, ?_, ?_, ?_⟩
  · simp [InsertAfter, assert_, before_begin, target, Machine.next_node, hcell,
      Machine.new_Node, Machine.set_next_node, Machine.load, hcell1, Machine.obj, ho,
      Machine.setObj, hp]
  · refine ⟨{ o with size_ := size_inc o.size_ }, by simp [hl], ?_, ?_⟩
    · refine (chain_append_iff _ _ _ _).2 ⟨q, seg_congr hseg ?_, ?_⟩
      · intro c hc
        refine hpo c.1 (hlt c (List.mem_append_left _ hc)) ?_
        rintro hca
        exact hdisj (List.mem_map_of_mem _ hc) (by simp [hca])
      · refine (chain_cons _ _ _ _).2 ⟨hqa, some m.heap.length, hpa, ?_⟩
        refine (chain_cons _ _ _ _).2 ⟨rfl, nx, hpn, chain_congr hsuf ?_⟩
        intro c hc
        refine hpo c.1 (hlt c (by simp [hc])) ?_
        rintro hca
        exact hnd2.1 (List.mem_map.2 ⟨c, hc, hca⟩)
    · simp only [size_inc, hsz, List.length_append, List.length_cons]
      omega
  · refine ⟨by simp, ?_, by simp [hp], ?_⟩
    · intro j hj
      simp [List.getElem?_set_ne (Ne.symm hj)]
    · intro b hb hnb
      refine hpo b hb ?_
      rintro rfl
      exact hnb (by simp [addrs])
  · intro b hb
    simp only [addrs, List.map_append, List.map_cons, List.mem_append, List.mem_cons] at hb ⊢
    rcases hb with hb | rfl | rfl | hb
    · exact Or.inl (Or.inl hb)
    · exact Or.inl (Or.inr (Or.inl rfl))
    · exact Or.inr le_rfl
    · exact Or.inl (Or.inr (Or.inr hb))

end Operations

section Removal

variable {α : Type}

theorem size_dec_succ (n : Nat) : size_dec (n + 1) = n := by
  simp [size_dec]

/-- The cursor on the first node of a chain, `end()` for the empty chain. -/
theorem ofLink_chain {h : List (Option (Node α))} {q : Option Nat} {cs : List (Nat × α)}
    (hch : Chain h q cs) : ofLink q = (cs[0]?).map fun c => NodePtr.node c.1 := by
  cases cs with
  | nil => simp [(chain_nil h q).1 hch, ofLink]
  | cons c cs => simp [((chain_cons h q c cs).1 hch).1, ofLink]

theorem eraseAfter_head (nd : Bool) {m : Machine α} {l : Nat} {c : Nat × α}
    {rest : List (Nat × α)} (h : IsList m l (c :: rest)) :
    ∃ m2, EraseAfter nd m l (before_begin l) = .ok (cursorAt l rest 1, m2) ∧
      Updates m m2 l (c :: rest) rest := by
  obtain ⟨o, ho, hch, hsz⟩ := h
  have hl : l < m.objs.length := (List.getElem?_eq_some.1 ho).1
  have hnodup := chain_nodup hch
  obtain ⟨hhead, nx, hcell, hrest⟩ := (chain_cons _ _ _ _).1 hch
  have hc : c.1 < m.heap.length := (List.getElem?_eq_some.1 hcell).1
  rw [List.map_cons, List.nodup_cons] at hnodup
  refine ⟨⟨m.heap.set c.1 none, m.objs.set l ⟨nx, size_dec o.size_⟩⟩, ?_, ?_, ?_, ?_⟩
  · simp [EraseAfter, assert_, before_begin, target, Machine.next_node, Machine.obj, ho, hhead,
      ofLink, Machine.load, hcell, Machine.delete, Machine.set_next_node, Machine.setObj, hl,
      cursorAt]
    exact ofLink_chain hrest
  · refine ⟨⟨nx, size_dec o.size_⟩, by simp [hl], chain_set _ _ hrest hnodup.1, ?_⟩
    simp [hsz, size_dec_succ]
  · refine ⟨by simp, ?_, by simp, ?_⟩
    · intro j hj
      simp [List.getElem?_set_ne (Ne.symm hj)]
    · intro b _ hnb
      have : c.1 ≠ b := by
        rintro rfl
        exact hnb (by simp [addrs])
      simp [List.getElem?_set_ne this]
  · intro b hb
    exact Or.inl (by simp only [addrs, List.map_cons, List.mem_cons] at hb ⊢; exact Or.inr hb)

theorem eraseAfter_node (nd : Bool) {m : Machine α} {l : Nat} {pre suf : List (Nat × α)}
    {a b : Nat} {v w : α} (h : IsList m l (pre ++ (a, v) :: (b, w) :: suf)) :
    ∃ m2, EraseAfter nd m l ⟨some (.node a)⟩ =
        .ok (⟨(suf[0]?).map fun c => NodePtr.node c.1⟩, m2) ∧
      Updates m m2 l (pre ++ (a, v) :: (b, w) :: suf) (pre ++ (a, v) :: suf) := by
  obtain ⟨o, ho, hch, hsz⟩ := h
  have hl : l < m.objs.length := (List.getElem?_eq_some.1 ho).1
  have hnodup := chain_nodup hch
  have hlt := chain_lt hch
  obtain ⟨q, hseg, hq⟩ := (chain_append_iff _ _ _ _).1 hch
  obtain ⟨hqa, nxa, hcella, hq2⟩ := (chain_cons _ _ _ _).1 hq
  obtain ⟨hnxa, nx, hcellb, hsuf⟩ := (chain_cons _ _ _ _).1 hq2
  simp only at hqa hcella hnxa hcellb
  subst hnxa
  have ha : a < m.heap.length := (List.getElem?_eq_some.1 hcella).1
  have hb : b < m.heap.length := (List.getElem?_eq_some.1 hcellb).1
  rw [List.map_append, List.map_cons, List.map_cons, List.nodup_append] at hnodup
  obtain ⟨-, hnd2, hdisj⟩ := hnodup
  rw [List.nodup_cons, List.nodup_cons] at hnd2
  have hab : a ≠ b := by
    intro hab
    exact hnd2.1 (by simp [hab])
  have hcella1 : (m.heap.set b none)[a]? = some (some ⟨v, some b⟩) := by
    rw [List.getElem?_set_ne (Ne.symm hab)]; exact hcella
  let hp : List (Option (Node α)) := (m.heap.set b none).set a (some (Node.mk v nx))
  have hpa : hp[a]? = some (some ⟨v, nx⟩) := by
    have hlen : a < (m.heap.set b none).length := by simp only [List.length_set]; omega
    simp only [hp]
    rw [List.getElem?_set_self hlen]
  have hpo : ∀ d, d ≠ a → d ≠ b → hp[d]? = m.heap[d]? := by
    intro d hda hdb
    simp [hp, List.getElem?_set_ne (Ne.symm hda), List.getElem?_set_ne (Ne.symm hdb)]
  refine ⟨⟨hp, m.objs.set l { o with size_ := size_dec o.size_ }⟩, ?_, ?_, ?_, ?_⟩
  · simp [EraseAfter, assert_, target, Machine.next_node, ofLink, Machine.load, hcella, hcellb,
      Machine.delete, Machine.set_next_node, hcella1, Machine.obj, ho, Machine.setObj, hp, hpa]
    exact ofLink_chain hsuf
  · refine ⟨{ o with size_ := size_dec o.size_ }, by simp [hl], ?_, ?_⟩
    · refine (chain_append_iff _ _ _ _).2 ⟨q, seg_congr hseg ?_, ?_⟩
      · intro c hc
        have hmem : c.1 ∈ List.map Prod.fst pre := List.mem_map_of_mem _ hc
        refine hpo c.1 ?_ ?_
        · rintro hca
          exact hdisj hmem (by simp [hca])
        · rintro hcb
          exact hdisj hmem (by simp [hcb])
      · refine (chain_cons _ _ _ _).2 ⟨hqa, nx, hpa, chain_congr hsuf ?_⟩
        intro c hc
        have hmem : c.1 ∈ List.map Prod.fst suf := List.mem_map_of_mem _ hc
        refine hpo c.1 ?_ ?_
        · rintro hca
          exact hnd2.1 (by simp only [List.mem_cons]; exact Or.inr (hca ▸ hmem))
        · rintro hcb
          exact hnd2.2.1 (hcb ▸ hmem)
    · simp only [hsz, List.length_append, List.length_cons]
      rw [show pre.length + (suf.length + 1 + 1) = (pre.length + (suf.length + 1)) + 1 by omega,
        size_dec_succ]
  · refine ⟨by simp, ?_, by simp [hp], ?_⟩
    · intro j hj
      simp [List.getElem?_set_ne (Ne.symm hj)]
    · intro d _ hnd
      simp only [addrs, List.map_append, List.map_cons, List.mem_append, List.mem_cons,
        not_or] at hnd
      exact hpo d hnd.2.1 hnd.2.2.1
  · intro d hd
    simp only [addrs, List.map_append, List.map_cons, List.mem_append, List.mem_cons] at hd ⊢
    rcases hd with hd | rfl | hd
    · exact Or.inl (Or.inl hd)
    · exact Or.inl (Or.inr (Or.inl rfl))
    · exact Or.inl (Or.inr (Or.inr (Or.inr hd)))

theorem popFront_updates {m : Machine α} {l : Nat} {c : Nat × α} {rest : List (Nat × α)}
    (h : IsList m l (c :: rest)) :
    ∃ m2, PopFront true m l = .ok m2 ∧ Updates m m2 l (c :: rest) rest := by
  obtain ⟨o, ho, hch, hsz⟩ := h
  have hl : l < m.objs.length := (List.getElem?_eq_some.1 ho).1
  have hnodup := chain_nodup hch
  obtain ⟨hhead, nx, hcell, hrest⟩ := (chain_cons _ _ _ _).1 hch
  rw [List.map_cons, List.nodup_cons] at hnodup
  refine ⟨⟨m.heap.set c.1 none, m.objs.set l ⟨nx, size_dec o.size_⟩⟩, ?_, ?_, ?_, ?_⟩
  · simp [PopFront, assert_, target, Machine.next_node, Machine.obj, ho, hhead,
      ofLink, Machine.load, hcell, Machine.delete, Machine.setObj]
  · refine ⟨⟨nx, size_dec o.size_⟩, by simp [hl], chain_set _ _ hrest hnodup.1, ?_⟩
    simp [hsz, size_dec_succ]
  · refine ⟨by simp, ?_, by simp, ?_⟩
    · intro j hj
      simp [List.getElem?_set_ne (Ne.symm hj)]
    · intro b _ hnb
      have : c.1 ≠ b := by
        rintro rfl
        exact hnb (by simp [addrs])
      simp [List.getElem?_set_ne this]
  · intro b hb
    exact Or.inl (by simp only [addrs, List.map_cons, List.mem_cons] at hb ⊢; exact Or.inr hb)

end Removal

section ClearSwap

variable {α : Type}

/-- The loop of `Clear()` on a chain: every node is deleted, the head link
becomes null, `size_` is not touched. -/
theorem clear_loop_chain (l : Nat) :
    ∀ (cs : List (Nat × α)) (m : Machine α) (o : SingleLinkedList) (fuel : Nat),
      m.objs[l]? = some o → Chain m.heap o.head_next_node cs → cs.length < fuel →
      ∃ m2, Clear_loop l fuel m = .ok m2 ∧ m2.objs[l]? = some ⟨none, o.size_⟩ ∧
        m2.objs.length = m.objs.length ∧ (∀ j, j ≠ l → m2.objs[j]? = m.objs[j]?) ∧
        m2.heap.length = m.heap.length ∧ ∀ a, a ∉ addrs cs → m2.heap[a]? = m.heap[a]?
  | [], m, o, fuel, ho, hch, hf => by
    obtain ⟨f, rfl⟩ : ∃ f, fuel = f + 1 := ⟨fuel - 1, by simp at hf; omega⟩
    have hp : o.head_next_node = none := by simpa using hch
    refine ⟨m, by simp [Clear_loop, Machine.obj, ho, hp], ?_, rfl, fun _ _ => rfl, rfl,
      fun _ _ => rfl⟩
    rw [ho, ← hp]
  | c :: cs, m, o, fuel, ho, hch, hf => by
    obtain ⟨f, rfl⟩ : ∃ f, fuel = f + 1 := ⟨fuel - 1, by simp at hf; omega⟩
    have hl : l < m.objs.length := (List.getElem?_eq_some.1 ho).1
    have hnodup := chain_nodup hch
    obtain ⟨hhead, nx, hcell, hrest⟩ := (chain_cons _ _ _ _).1 hch
    rw [List.map_cons, List.nodup_cons] at hnodup
    obtain ⟨m2, hrun, hobj, hlen, hothers, hhlen, hheap⟩ :=
      clear_loop_chain l cs ⟨m.heap.set c.1 none, m.objs.set l ⟨nx, o.size_⟩⟩ ⟨nx, o.size_⟩ f
        (by simp [hl]) (chain_set _ _ hrest hnodup.1) (by simp at hf; omega)
    refine ⟨m2, ?_, hobj, by simpa using hlen, ?_, by simpa using hhlen, ?_⟩
    · simp only [Clear_loop, Machine.obj, ho, hhead, ok_bind, Machine.load, hcell,
        Machine.setObj, Machine.delete, pure_eq_ok]
      exact hrun
    · intro j hj
      rw [hothers j hj]
      simp [List.getElem?_set_ne (Ne.symm hj)]
    · intro a ha
      simp only [addrs, List.map_cons, List.mem_cons, not_or] at ha
      rw [hheap a ha.2]
      simp [List.getElem?_set_ne (Ne.symm ha.1)]

theorem clear_updates {m : Machine α} {l : Nat} {cs : List (Nat × α)} (h : IsList m l cs) :
    ∃ m2, Clear m l = .ok m2 ∧ Updates m m2 l cs [] := by
  obtain ⟨o, ho, hch, -⟩ := h
  obtain ⟨m1, hrun, hobj, hlen, hothers, hhlen, hheap⟩ :=
    clear_loop_chain l cs m o (m.heap.length + 1) ho hch
      (Nat.lt_succ_of_le (chain_length_le hch))
  have hl : l < m1.objs.length := (List.getElem?_eq_some.1 hobj).1
  refine ⟨⟨m1.heap, m1.objs.set l ⟨none, 0⟩⟩, ?_, ?_, ?_, ?_⟩
  · simp [Clear, hrun, Machine.obj, hobj, Machine.setObj]
  · exact ⟨⟨none, 0⟩, by simp [hl], by simp, rfl⟩
  · refine ⟨by simpa using hlen, ?_, by simp [hhlen], ?_⟩
    · intro j hj
      simp only [List.getElem?_set_ne (Ne.symm hj)]
      exact hothers j hj
    · intro a _ ha
      exact hheap a ha
  · intro a ha
    simp [addrs] at ha

theorem swap_ok {m : Machine α} {a b : Nat} {oa ob : SingleLinkedList}
    (ha : m.objs[a]? = some oa) (hb : m.objs[b]? = some ob) :
    swap m a b = .ok ⟨m.heap, (m.objs.set a ob).set b oa⟩ := by
  simp [swap, Machine.obj, ha, hb, Machine.setObj]

/-- After `swap` each of the two lists has the nodes the other had. -/
theorem swap_isList {m : Machine α} {a b : Nat} {cs ds : List (Nat × α)}
    (ha : IsList m a cs) (hb : IsList m b ds) :
    ∃ m2, swap m a b = .ok m2 ∧ m2.heap = m.heap ∧ m2.objs.length = m.objs.length ∧
      (∀ j, j ≠ a → j ≠ b → m2.objs[j]? = m.objs[j]?) ∧ IsList m2 a ds ∧ IsList m2 b cs := by
  obtain ⟨oa, hoa, hcha, hsza⟩ := ha
  obtain ⟨ob, hob, hchb, hszb⟩ := hb
  have hla : a < m.objs.length := (List.getElem?_eq_some.1 hoa).1
  have hlb : b < m.objs.length := (List.getElem?_eq_some.1 hob).1
  refine ⟨_, swap_ok hoa hob, rfl, by simp, ?_, ?_, ?_⟩
  · intro j hja hjb
    simp [List.getElem?_set_ne (Ne.symm hja), List.getElem?_set_ne (Ne.symm hjb)]
  · by_cases hab : a = b
    · subst hab
      rw [hoa] at hob
      cases hob
      exact ⟨oa, by simp [hla], hchb, hszb⟩
    · exact ⟨ob, by simp [List.getElem?_set_ne (Ne.symm hab), hla], hchb, hszb⟩
  · exact ⟨oa, by simp [hlb], hcha, hsza⟩

end ClearSwap

/-! ## Comparison operators -/

section Compare

variable {α : Type}

theorem equal_chain [DecidableEq α] (nd : Bool) (m : Machine α) :
    ∀ (cs ds : List (Nat × α)) (p q : Option Nat) (fuel : Nat), Chain m.heap p cs →
      Chain m.heap q ds → cs.length < fuel →
      std_equal nd m fuel ⟨ofLink p⟩ end_ ⟨ofLink q⟩ =
        equal3 nd (cs.map Prod.snd) (ds.map Prod.snd)
  | [], ds, p, q, fuel, hc, _, hf => by
    obtain ⟨f, rfl⟩ : ∃ f, fuel = f + 1 := ⟨fuel - 1, by simp at hf; omega⟩
    have hp : p = none := by simpa using hc
    simp [std_equal, hp, ofLink, end_, equal3]
  | c :: cs, [], p, q, fuel, hc, hd, hf => by
    obtain ⟨f, rfl⟩ : ∃ f, fuel = f + 1 := ⟨fuel - 1, by simp at hf; omega⟩
    obtain ⟨hp, nx, hcell, hrest⟩ := (chain_cons _ p c cs).1 hc
    have hq : q = none := by simpa using hd
    subst hp hq
    rw [std_equal, if_pos (ofLink_some_ne_end _)]
    simp only [ofLink, Option.map_some', Option.map_none']
    rw [star_node nd hcell, star_null]
    simp [equal3]
  | c :: cs, d :: ds, p, q, fuel, hc, hd, hf => by
    obtain ⟨f, rfl⟩ : ∃ f, fuel = f + 1 := ⟨fuel - 1, by simp at hf; omega⟩
    obtain ⟨hp, nx, hcell, hrest⟩ := (chain_cons _ p c cs).1 hc
    obtain ⟨hq, nx2, hcell2, hrest2⟩ := (chain_cons _ q d ds).1 hd
    have ih := equal_chain nd m cs ds nx nx2 f hrest hrest2 (by simp at hf; omega)
    subst hp hq
    rw [std_equal, if_pos (ofLink_some_ne_end _)]
    simp only [ofLink, Option.map_some']
    rw [star_node nd hcell, star_node nd hcell2, preinc_node nd hcell, preinc_node nd hcell2]
    simp only [ok_bind, List.map_cons, equal3]
    by_cases hv : c.2 = d.2
    · simp only [hv, not_true_eq_false, if_false, if_true]
      exact ih
    · simp [hv]

theorem lex_chain [LT α] [DecidableRel (fun a b : α => a < b)] (nd : Bool) (m : Machine α) :
    ∀ (cs ds : List (Nat × α)) (p q : Option Nat) (fuel : Nat), Chain m.heap p cs →
      Chain m.heap q ds → cs.length < fuel →
      std_lexicographical_compare nd m fuel ⟨ofLink p⟩ end_ ⟨ofLink q⟩ end_ =
        .ok (lexCompare (cs.map Prod.snd) (ds.map Prod.snd))
  | [], [], p, q, fuel, hc, hd, hf => by
    obtain ⟨f, rfl⟩ : ∃ f, fuel = f + 1 := ⟨fuel - 1, by simp at hf; omega⟩
    have hp : p = none := by simpa using hc
    have hq : q = none := by simpa using hd
    simp [std_lexicographical_compare, hp, hq, ofLink, end_, lexCompare]
  | [], d :: ds, p, q, fuel, hc, hd, hf => by
    obtain ⟨f, rfl⟩ : ∃ f, fuel = f + 1 := ⟨fuel - 1, by simp at hf; omega⟩
    have hp : p = none := by simpa using hc
    have hq := ((chain_cons _ q d ds).1 hd).1
    simp [std_lexicographical_compare, hp, hq, ofLink, end_, lexCompare]
  | c :: cs, [], p, q, fuel, hc, hd, hf => by
    obtain ⟨f, rfl⟩ : ∃ f, fuel = f + 1 := ⟨fuel - 1, by simp at hf; omega⟩
    have hp := ((chain_cons _ p c cs).1 hc).1
    have hq : q = none := by simpa using hd
    simp [std_lexicographical_compare, hp, hq, ofLink, end_, lexCompare]
  | c :: cs, d :: ds, p, q, fuel, hc, hd, hf => by
    obtain ⟨f, rfl⟩ : ∃ f, fuel = f + 1 := ⟨fuel - 1, by simp at hf; omega⟩
    obtain ⟨hp, nx, hcell, hrest⟩ := (chain_cons _ p c cs).1 hc
    obtain ⟨hq, nx2, hcell2, hrest2⟩ := (chain_cons _ q d ds).1 hd
    have ih := lex_chain nd m cs ds nx nx2 f hrest hrest2 (by simp at hf; omega)
    subst hp hq
    rw [std_lexicographical_compare,
      if_pos ⟨ofLink_some_ne_end _, ofLink_some_ne_end _⟩]
    simp only [ofLink, Option.map_some']
    rw [star_node nd hcell, star_node nd hcell2, preinc_node nd hcell, preinc_node nd hcell2]
    simp only [ok_bind, List.map_cons, lexCompare]
    by_cases h1 : c.2 < d.2
    · simp [h1]
    · by_cases h2 : d.2 < c.2
      · simp [h1, h2]
      · simp only [h1, h2, if_false]
        exact ih

theorem operator_lt_isList [LT α] [DecidableRel (fun a b : α => a < b)] (nd : Bool)
    {m : Machine α} {A B : Nat} {cs ds : List (Nat × α)} (hA : IsList m A cs)
    (hB : IsList m B ds) :
    operator_lt nd m A B = .ok (lexCompare (cs.map Prod.snd) (ds.map Prod.snd)) := by
  obtain ⟨oa, hoa, hcha, -⟩ := hA
  obtain ⟨ob, hob, hchb, -⟩ := hB
  simp only [operator_lt, begin_, obj_of_get hoa, obj_of_get hob, ok_bind, pure_eq_ok]
  exact lex_chain nd m cs ds _ _ _ hcha hchb (Nat.lt_succ_of_le (chain_length_le hcha))

theorem operator_gt_eq [LT α] [DecidableRel (fun a b : α => a < b)] (nd : Bool)
    (m : Machine α) (A B : Nat) : operator_gt nd m A B = operator_lt nd m B A := rfl

theorem operator_eq_isList [DecidableEq α] (nd : Bool)
    {m : Machine α} {A B : Nat} {cs ds : List (Nat × α)} (hA : IsList m A cs)
    (hB : IsList m B ds) :
    operator_eq nd m A B = equal3 nd (cs.map Prod.snd) (ds.map Prod.snd) := by
  obtain ⟨oa, hoa, hcha, -⟩ := hA
  obtain ⟨ob, hob, hchb, -⟩ := hB
  simp only [operator_eq, begin_, obj_of_get hoa, obj_of_get hob, ok_bind, pure_eq_ok]
  exact equal_chain nd m cs ds _ _ _ hcha hchb (Nat.lt_succ_of_le (chain_length_le hcha))

theorem equal3_self [DecidableEq α] (nd : Bool) : ∀ A : List α, equal3 nd A A = .ok true
  | [] => rfl
  | a :: as => by simp [equal3, equal3_self nd as]

/-- On a linear order the loop computes the lexicographic order of the spec. -/
theorem lexCompare_iff [LinearOrder α] :
    ∀ A B : List α, lexCompare A B = true ↔ LexLess A B
  | [], [] => by
    simp [lexCompare, LexLess]
  | [], b :: bs => by
    simp only [lexCompare, LexLess, true_iff]
    exact ⟨0, rfl, Or.inl ⟨rfl, by simp⟩⟩
  | a :: as, [] => by
    simp [lexCompare, LexLess]
  | a :: as, b :: bs => by
    have ih := lexCompare_iff as bs
    simp only [lexCompare]
    by_cases h1 : a < b
    · simp only [h1, if_true, true_iff]
      exact ⟨0, rfl, Or.inr ⟨a, b, by simp, by simp, h1⟩⟩
    · by_cases h2 : b < a
      · simp only [h1, h2, if_true, if_false, false_iff, Bool.false_eq_true]
        rintro ⟨k, htake, hk⟩
        cases k with
        | zero =>
          rcases hk with ⟨hk, -⟩ | ⟨x, y, hx, hy, hxy⟩
          · simp at hk
          · simp at hx hy
            subst hx hy
            exact h1 hxy
        | succ k =>
          simp only [List.take_succ_cons, List.cons.injEq] at htake
          exact h1 (htake.1 ▸ h2)
      · have hab : a = b := le_antisymm (not_lt.1 h2) (not_lt.1 h1)
        subst hab
        simp only [h1, if_false]
        rw [ih]
        constructor
        · rintro ⟨k, htake, hk⟩
          refine ⟨k + 1, by simp [htake], ?_⟩
          rcases hk with ⟨hk, hlt⟩ | ⟨x, y, hx, hy, hxy⟩
          · exact Or.inl ⟨by simp [hk], by simp; omega⟩
          · exact Or.inr ⟨x, y, by simpa using hx, by simpa using hy, hxy⟩
        · rintro ⟨k, htake, hk⟩
          cases k with
          | zero =>
            rcases hk with ⟨hk, -⟩ | ⟨x, y, hx, hy, hxy⟩
            · simp at hk
            · simp at hx hy
              subst hx hy
              exact absurd hxy h1
          | succ k =>
            simp only [List.take_succ_cons, List.cons.injEq, true_and] at htake
            refine ⟨k, htake, ?_⟩
            rcases hk with ⟨hk, hlt⟩ | ⟨x, y, hx, hy, hxy⟩
            · exact Or.inl ⟨by simpa using hk, by simpa using hlt⟩
            · exact Or.inr ⟨x, y, by simpa using hx, by simpa using hy, hxy⟩

/-- Trichotomy of the comparison on a linear order. -/
theorem lexCompare_not_iff [LinearOrder α] :
    ∀ A B : List α, lexCompare B A = false ↔ (lexCompare A B = true ∨ A = B)
  | [], [] => by simp [lexCompare]
  | [], b :: bs => by simp [lexCompare]
  | a :: as, [] => by simp [lexCompare]
  | a :: as, b :: bs => by
    have ih := lexCompare_not_iff as bs
    simp only [lexCompare, List.cons.injEq]
    by_cases h1 : a < b
    · have h2 : ¬ b < a := not_lt.2 (le_of_lt h1)
      simp [h1, h2]
    · by_cases h2 : b < a
      · have hne : a ≠ b := fun h => h1 (h ▸ h2)
        simp [h1, h2, hne]
      · have hab : a = b := le_antisymm (not_lt.1 h2) (not_lt.1 h1)
        subst hab
        simp only [h1, if_false, true_and]
        exact ih

end Compare

/-! ## Positions -/

section Positions

variable {α : Type}

theorem split_at {cs : List (Nat × α)} {k : Nat} (h : k < cs.length) :
    cs = cs.take k ++ (cs[k].1, cs[k].2) :: cs.drop (k + 1) := by
  rw [Prod.mk.eta, ← List.drop_eq_getElem_cons h, List.take_append_drop]

theorem cursorAt_succ (l : Nat) {cs : List (Nat × α)} {k : Nat} (h : k < cs.length) :
    cursorAt l cs (k + 1) = ⟨some (.node cs[k].1)⟩ := by
  simp [cursorAt, List.getElem?_eq_getElem h]

/-- `InsertAfter` at position `k` of a list. -/
theorem insertAfter_at (nd : Bool) {m : Machine α} {l : Nat} {cs : List (Nat × α)} (x : α)
    (h : IsList m l cs) (k : Nat) (hk : k ≤ cs.length) :
    ∃ m2, InsertAfter nd m l (cursorAt l cs k) x = .ok (⟨some (.node m.heap.length)⟩, m2) ∧
      Updates m m2 l cs (cs.take k ++ (m.heap.length, x) :: cs.drop k) := by
  cases k with
  | zero =>
    obtain ⟨m2, hrun, -, hup⟩ := insertAfter_head nd x h
    exact ⟨m2, hrun, by simpa using hup⟩
  | succ k =>
    have hk2 : k < cs.length := hk
    have hs := split_at hk2
    have h2 : IsList m l (cs.take k ++ (cs[k].1, cs[k].2) :: cs.drop (k + 1)) := by
      rw [← hs]; exact h
    obtain ⟨m2, hrun, hup⟩ := insertAfter_node nd x h2
    refine ⟨m2, by rw [cursorAt_succ l hk2]; exact hrun, ?_⟩
    rw [← hs] at hup
    have ht : cs.take (k + 1) = cs.take k ++ [(cs[k].1, cs[k].2)] := by
      rw [List.take_succ, List.getElem?_eq_getElem hk2]; rfl
    rw [ht, List.append_assoc]
    exact hup

/-- `EraseAfter` at position `k` of a list, when a node follows that position. -/
theorem eraseAfter_at (nd : Bool) {m : Machine α} {l : Nat} {cs : List (Nat × α)}
    (h : IsList m l cs) (k : Nat) (hk : k < cs.length) :
    ∃ m2, EraseAfter nd m l (cursorAt l cs k) = .ok (cursorAt l (cs.eraseIdx k) (k + 1), m2) ∧
      Updates m m2 l cs (cs.eraseIdx k) := by
  cases k with
  | zero =>
    cases cs with
    | nil => simp at hk
    | cons c rest =>
      obtain ⟨m2, hrun, hup⟩ := eraseAfter_head nd h
      exact ⟨m2, hrun, hup⟩
  | succ k =>
    have hk2 : k < cs.length := Nat.lt_of_succ_lt hk
    have hs := split_at hk2
    have hs2 : cs.drop (k + 1) = (cs[k + 1].1, cs[k + 1].2) :: cs.drop (k + 2) := by
      rw [Prod.mk.eta, ← List.drop_eq_getElem_cons hk]
    have h2 : IsList m l (cs.take k ++ (cs[k].1, cs[k].2) :: (cs[k + 1].1, cs[k + 1].2) ::
        cs.drop (k + 2)) := by
      rw [← hs2, ← hs]; exact h
    obtain ⟨m2, hrun, hup⟩ := eraseAfter_node nd h2
    rw [← hs2, ← hs] at hup
    have he : cs.eraseIdx (k + 1) = cs.take k ++ (cs[k].1, cs[k].2) :: cs.drop (k + 2) := by
      rw [List.eraseIdx_eq_take_drop_succ, ← List.take_concat_get cs k hk2,
        List.concat_eq_append, List.append_assoc]
      rfl
    have hlen : (cs.take k).length = k := by
      rw [List.length_take]; omega
    have hc : cursorAt l (cs.eraseIdx (k + 1)) (k + 1 + 1) =
        ⟨((cs.drop (k + 2))[0]?).map fun c => NodePtr.node c.1⟩ := by
      rw [he]
      simp only [cursorAt]
      rw [List.getElem?_append_right (by omega), hlen]
      simp
    refine ⟨m2, by rw [cursorAt_succ l hk2, hc]; exact hrun, ?_⟩
    rw [he]
    exact hup

/-- The node at index `k` of a chain and the chain behind it. -/
theorem chain_at {h : List (Option (Node α))} :
    ∀ {cs : List (Nat × α)} {p : Option Nat} (k : Nat) (hk : k < cs.length), Chain h p cs →
      ∃ nx, h[cs[k].1]? = some (some ⟨cs[k].2, nx⟩) ∧ Chain h nx (cs.drop (k + 1))
  | [], _, _, hk, _ => by simp at hk
  | c :: cs, p, 0, _, hch => by
    obtain ⟨-, nx, hcell, hrest⟩ := (chain_cons h p c cs).1 hch
    exact ⟨nx, hcell, by simpa using hrest⟩
  | c :: cs, p, k + 1, hk, hch => by
    obtain ⟨-, nx, -, hrest⟩ := (chain_cons h p c cs).1 hch
    have := chain_at k (by simpa using hk) hrest
    simpa using this

/-- Advancing the cursor on position `k` gives the cursor on position `k + 1`
(`end()` behind the last node). -/
theorem advance_cursorAt {m : Machine α} {l : Nat} {cs : List (Nat × α)}
    (h : IsList m l cs) (k : Nat) (hk : k ≤ cs.length) :
    (cursorAt l cs k).advance m = .ok (cursorAt l cs (k + 1)) := by
  obtain ⟨o, ho, hch, -⟩ := h
  cases k with
  | zero =>
    simp [cursorAt, before_begin, BasicIterator.advance, target, Machine.next_node,
      Machine.obj, ho]
    exact ofLink_chain hch
  | succ k =>
    have hk2 : k < cs.length := hk
    obtain ⟨nx, hcell, hrest⟩ := chain_at k hk2 hch
    rw [cursorAt_succ l hk2]
    simp [BasicIterator.advance, target, Machine.next_node, Machine.load, hcell, cursorAt]
    rw [ofLink_chain hrest, List.getElem?_drop]

end Positions

/-! ## Construction from a sequence -/

section Init

variable {α : Type}

/-- Two calls on the same list in a row. -/
theorem updates_trans {m m1 m2 : Machine α} {l : Nat} {cs cs1 cs2 : List (Nat × α)}
    (h1 : Updates m m1 l cs cs1) (h2 : Updates m1 m2 l cs1 cs2) : Updates m m2 l cs cs2 := by
  obtain ⟨-, ⟨hlen1, hobj1, hh1, hheap1⟩, hnew1⟩ := h1
  obtain ⟨hl2, ⟨hlen2, hobj2, hh2, hheap2⟩, hnew2⟩ := h2
  refine ⟨hl2, ⟨hlen2.trans hlen1, ?_, hh1.trans hh2, ?_⟩, ?_⟩
  · intro j hj
    rw [hobj2 j hj, hobj1 j hj]
  · intro a ha hna
    rw [hheap2 a (lt_of_lt_of_le ha hh1) ?_, hheap1 a ha hna]
    intro hmem
    rcases hnew1 a hmem with h | h
    · exact hna h
    · omega
  · intro a ha
    rcases hnew2 a ha with h | h
    · exact hnew1 a h
    · exact Or.inr (hh1.trans h)

theorem cursorAt_last (l : Nat) (cs : List (Nat × α)) (c : Nat × α) :
    cursorAt l (cs ++ [c]) (cs.length + 1) = ⟨some (.node c.1)⟩ := by
  simp [cursorAt]

/-- The loop of `Init` over an initializer list, started with the cursor on the
last position of `temp`: the items are appended in order. -/
theorem init_loop_values (nd : Bool) (temp : Nat) :
    ∀ (values : List α) (m : Machine α) (cs : List (Nat × α)), IsList m temp cs →
      ∃ t m2 new, Init_loop_values nd temp values (cursorAt temp cs cs.length) m = .ok (t, m2) ∧
        Updates m m2 temp cs (cs ++ new) ∧ new.map Prod.snd = values
  | [], m, cs, h => by
    refine ⟨_, m, [], rfl, ⟨by simpa using h, footprint_refl _ _ _, ?_⟩, rfl⟩
    intro a ha
    exact Or.inl (by simpa using ha)
  | x :: rest, m, cs, h => by
    obtain ⟨m1, hrun, hup⟩ := insertAfter_at nd x h cs.length le_rfl
    rw [List.take_length, List.drop_length] at hup
    obtain ⟨t, m2, new, hloop, hup2, hvals⟩ :=
      init_loop_values nd temp rest m1 (cs ++ [(m.heap.length, x)]) hup.1
    rw [List.length_append, List.length_singleton, cursorAt_last] at hloop
    refine ⟨t, m2, (m.heap.length, x) :: new, ?_, ?_, by simp [hvals]⟩
    · simp only [Init_loop_values, hrun, ok_bind]
      exact hloop
    · have := updates_trans hup hup2
      simpa using this

theorem isList_construct {m : Machine α} {l : Nat} {cs : List (Nat × α)} (h : IsList m l cs) :
    IsList (construct m).2 l cs := by
  obtain ⟨o, ho, hch, hsz⟩ := h
  refine ⟨o, ?_, hch, hsz⟩
  simp only [construct]
  rw [List.getElem?_append_left (List.getElem?_eq_some.1 ho).1]
  exact ho

theorem isList_construct_new (m : Machine α) : IsList (construct m).2 m.objs.length [] :=
  ⟨⟨none, 0⟩, by simp [construct], by simp, rfl⟩

/-- The end of `Init`: `swap(temp)` and the destruction of `temp`.  The list
`this` gets the nodes built in `temp`, its old nodes are deleted. -/
theorem init_finish {m m1 : Machine α} {this : Nat} {old new : List (Nat × α)}
    (hthis : IsList m this old)
    (hup : Updates (construct m).2 m1 m.objs.length [] new) :
    ∃ m3, (swap m1 this m.objs.length >>= fun m2 => destroy m2 m.objs.length) = .ok m3 ∧
      Updates m m3 this old new ∧ ∀ a ∈ addrs new, m.heap.length ≤ a := by
  have hlt : this < m.objs.length := isList_lt hthis
  have hne : this ≠ m.objs.length := Nat.ne_of_lt hlt
  obtain ⟨htemp, hfp, hnew⟩ := hup
  have hfresh : ∀ a ∈ addrs new, m.heap.length ≤ a := by
    intro a ha
    rcases hnew a ha with h | h
    · simp [addrs] at h
    · simpa [construct] using h
  have hold : ∀ a ∈ addrs old, a < m.heap.length := isList_addr_lt hthis
  have hthis1 : IsList m1 this old :=
    isList_frame hfp (isList_construct hthis) hne (by intro a _; simp [addrs])
  obtain ⟨m2, hswap, hheap2, hlen2, hobj2, hthis2, htemp2⟩ := swap_isList hthis1 htemp
  obtain ⟨m3, hclear, hl3, hfp3, -⟩ := clear_updates htemp2
  have hthis3 : IsList m3 this new := by
    refine isList_frame hfp3 hthis2 hne ?_
    intro a ha hao
    have h1 := hfresh a ha
    have h2 := hold a hao
    omega
  obtain ⟨hlenA, hobjA, hhA, hheapA⟩ := hfp
  obtain ⟨hlenB, hobjB, hhB, hheapB⟩ := hfp3
  have hlen3 : m3.objs.length = m.objs.length + 1 := by
    rw [hlenB, hlen2, hlenA]; simp [construct]
  have hdrop : ∀ j, j < m.objs.length → m3.objs.dropLast[j]? = m3.objs[j]? := by
    intro j hj
    rw [List.getElem?_dropLast, if_pos (by omega)]
  refine ⟨⟨m3.heap, m3.objs.dropLast⟩, by simp [hswap, destroy, hclear], ⟨?_, ⟨?_, ?_, ?_, ?_⟩, ?_⟩,
    hfresh⟩
  · obtain ⟨o, ho, hch, hsz⟩ := hthis3
    exact ⟨o, by rw [← ho]; exact hdrop this hlt, hch, hsz⟩
  · simp [List.length_dropLast, hlen3]
  · intro j hj
    by_cases hjl : j < m.objs.length
    · have hjt : j ≠ m.objs.length := Nat.ne_of_lt hjl
      show m3.objs.dropLast[j]? = m.objs[j]?
      rw [hdrop j hjl, hobjB j hjt, hobj2 j hj hjt, hobjA j hjt]
      simp [construct, List.getElem?_append_left hjl]
    · show m3.objs.dropLast[j]? = m.objs[j]?
      rw [List.getElem?_eq_none (by simp [List.length_dropLast, hlen3]; omega),
        List.getElem?_eq_none (by omega)]
  · show m.heap.length ≤ m3.heap.length
    have : m.heap.length ≤ m1.heap.length := by simpa [construct] using hhA
    rw [hheap2] at hhB
    exact this.trans hhB
  · intro a ha hna
    show m3.heap[a]? = m.heap[a]?
    have ha1 : a < m1.heap.length := lt_of_lt_of_le ha (by simpa [construct] using hhA)
    rw [hheapB a (by rw [hheap2]; exact ha1) hna, hheap2,
      hheapA a (by simpa [construct] using ha) (by simp [addrs])]
    simp [construct]
  · intro a ha
    exact Or.inr (hfresh a ha)

/-- `Init(values)` on a list with nodes `old`. -/
theorem init_values_updates (nd : Bool) {m : Machine α} {this : Nat} {old : List (Nat × α)}
    (values : List α) (hthis : IsList m this old) :
    ∃ m3 new, Init_values nd m this values = .ok m3 ∧ Updates m m3 this old new ∧
      new.map Prod.snd = values ∧ ∀ a ∈ addrs new, m.heap.length ≤ a := by
  obtain ⟨t, m1, new, hloop, hup, hvals⟩ :=
    init_loop_values nd m.objs.length values (construct m).2 [] (isList_construct_new m)
  obtain ⟨m3, hfin, hup3, hfresh⟩ := init_finish hthis (by simpa using hup)
  refine ⟨m3, new, ?_, hup3, hvals, hfresh⟩
  simp only [Init_values]
  have hc : construct m = (m.objs.length, (construct m).2) := rfl
  rw [hc]
  simp only [cursorAt, List.length_nil] at hloop
  simp only [hloop, ok_bind]
  exact hfin

end Init

section Copy

variable {α : Type}

/-- The loop of `Init` over the rest `rem` of another list's chain, started
with the cursor on the last position of `temp`: the values of `rem` are
appended in order. -/
theorem init_loop_list (nd : Bool) (temp : Nat) :
    ∀ (rem : List (Nat × α)) (m : Machine α) (cs : List (Nat × α)) (q : Option Nat)
      (fuel : Nat), IsList m temp cs → Chain m.heap q rem →
      (∀ a ∈ addrs rem, a ∉ addrs cs) → rem.length < fuel →
      ∃ t m2 new, Init_loop_list nd temp fuel ⟨ofLink q⟩ (cursorAt temp cs cs.length) m
          = .ok (t, m2) ∧
        Updates m m2 temp cs (cs ++ new) ∧ new.map Prod.snd = rem.map Prod.snd
  | [], m, cs, q, fuel, h, hq, _, hf => by
    obtain ⟨f, rfl⟩ : ∃ f, fuel = f + 1 := ⟨fuel - 1, by simp at hf; omega⟩
    have hqn : q = none := by simpa using hq
    refine ⟨cursorAt temp cs cs.length, m, [], by simp [Init_loop_list, hqn, ofLink, end_],
      ⟨by simpa using h, footprint_refl _ _ _, ?_⟩, rfl⟩
    intro a ha
    exact Or.inl (by simpa using ha)
  | d :: rem, m, cs, q, fuel, h, hq, hdis, hf => by
    obtain ⟨f, rfl⟩ : ∃ f, fuel = f + 1 := ⟨fuel - 1, by simp at hf; omega⟩
    obtain ⟨hqd, nx, hcell, hrest⟩ := (chain_cons _ q d rem).1 hq
    have hlt := chain_lt hq
    obtain ⟨m1, hrun, hup⟩ := insertAfter_at nd d.2 h cs.length le_rfl
    rw [List.take_length, List.drop_length] at hup
    obtain ⟨hl1, ⟨-, -, -, hheap⟩, -⟩ := id hup
    have hcell1 : m1.heap[d.1]? = some (some ⟨d.2, nx⟩) := by
      rw [hheap d.1 (hlt d (List.mem_cons_self _ _)) (hdis d.1 (by simp [addrs]))]
      exact hcell
    have hrest1 : Chain m1.heap nx rem := by
      refine chain_congr hrest ?_
      intro c hc
      exact hheap c.1 (hlt c (List.mem_cons_of_mem _ hc))
        (hdis c.1 (by simp only [addrs, List.map_cons, List.mem_cons]
                      exact Or.inr (List.mem_map_of_mem _ hc)))
    have hdis1 : ∀ a ∈ addrs rem, a ∉ addrs (cs ++ [(m.heap.length, d.2)]) := by
      intro a ha
      obtain ⟨c, hc, rfl⟩ := List.mem_map.1 ha
      have h1 := hlt c (List.mem_cons_of_mem _ hc)
      have h2 := hdis c.1 (by simp only [addrs, List.map_cons, List.mem_cons]
                              exact Or.inr ha)
      simp only [addrs, List.map_append, List.map_cons, List.map_nil, List.mem_append,
        List.mem_singleton, not_or]
      exact ⟨h2, by omega⟩
    obtain ⟨t, m2, new, hloop, hup2, hvals⟩ :=
      init_loop_list nd temp rem m1 (cs ++ [(m.heap.length, d.2)]) nx f hl1 hrest1 hdis1
        (by simp at hf; omega)
    rw [List.length_append, List.length_singleton, cursorAt_last] at hloop
    refine ⟨t, m2, (m.heap.length, d.2) :: new, ?_, ?_, by simp [hvals]⟩
    · subst hqd
      rw [Init_loop_list, if_pos (ofLink_some_ne_end _)]
      simp only [ofLink, Option.map_some']
      rw [star_node nd hcell]
      simp only [ok_bind, hrun]
      rw [preinc_node nd hcell1]
      exact hloop
    · have := updates_trans hup hup2
      simpa using this

/-- `Init(container)` on a list with nodes `old`, for another list `container`. -/
theorem init_list_updates (nd : Bool) {m : Machine α} {this container : Nat}
    {old ds : List (Nat × α)} (hthis : IsList m this old) (hcont : IsList m container ds) :
    ∃ m3 new, Init_list nd m this container = .ok m3 ∧ Updates m m3 this old new ∧
      new.map Prod.snd = ds.map Prod.snd ∧ ∀ a ∈ addrs new, m.heap.length ≤ a := by
  have hcont0 := isList_construct hcont
  obtain ⟨o, ho, hch, -⟩ := id hcont0
  obtain ⟨t, m1, new, hloop, hup, hvals⟩ :=
    init_loop_list nd m.objs.length ds (construct m).2 [] o.head_next_node
      (m.heap.length + 1) (isList_construct_new m) hch (by intro a _; simp [addrs])
      (Nat.lt_succ_of_le (by simpa [construct] using chain_length_le hch))
  obtain ⟨m3, hfin, hup3, hfresh⟩ := init_finish hthis (by simpa using hup)
  refine ⟨m3, new, ?_, hup3, hvals, hfresh⟩
  simp only [Init_list]
  have hc : construct m = (m.objs.length, (construct m).2) := rfl
  rw [hc]
  simp only [cursorAt, List.length_nil] at hloop
  simp only [begin_, obj_of_get ho, ok_bind, pure_eq_ok, hloop]
  exact hfin

/-- The initializer-list constructor on any store. -/
theorem construct_values_spec (nd : Bool) (m : Machine α) (values : List α) :
    ∃ m2 new, construct_values nd m values = .ok (m.objs.length, m2) ∧
      Updates (construct m).2 m2 m.objs.length [] new ∧ new.map Prod.snd = values ∧
      ∀ a ∈ addrs new, m.heap.length ≤ a := by
  obtain ⟨m2, new, hrun, hup, hvals, hfresh⟩ :=
    init_values_updates nd values (isList_construct_new m)
  refine ⟨m2, new, ?_, hup, hvals, by simpa [construct] using hfresh⟩
  simp only [construct_values]
  have hc : construct m = (m.objs.length, (construct m).2) := rfl
  rw [hc]
  simp only [hrun, ok_bind, pure_eq_ok]

/-- The copy constructor on a list of any store. -/
theorem construct_copy_spec (nd : Bool) {m : Machine α} {other : Nat} {cs : List (Nat × α)}
    (h : IsList m other cs) :
    ∃ m2 new, construct_copy nd m other = .ok (m.objs.length, m2) ∧
      Updates (construct m).2 m2 m.objs.length [] new ∧
      new.map Prod.snd = cs.map Prod.snd ∧ (∀ a ∈ addrs new, m.heap.length ≤ a) ∧
      IsList m2 other cs := by
  obtain ⟨m2, new, hrun, hup, hvals, hfresh⟩ :=
    init_list_updates nd (isList_construct_new m) (isList_construct h)
  refine ⟨m2, new, ?_, hup, hvals, by simpa [construct] using hfresh, ?_⟩
  · simp only [construct_copy]
    have hc : construct m = (m.objs.length, (construct m).2) := rfl
    rw [hc]
    simp only [hrun, ok_bind, pure_eq_ok]
  · exact isList_frame hup.2.1 (isList_construct h) (Nat.ne_of_lt (isList_lt h))
      (by intro a _; simp [addrs])

end Copy

/-! ## Sequences of calls -/

section Sequences

variable {α : Type}

/-- Every member function, given its precondition, returns and updates its list. -/
theorem op_updates (nd : Bool) {m : Machine α} {l : Nat} {cs : List (Nat × α)} (o : Op α)
    (h : IsList m l cs) (hp : o.Pre nd l cs) :
    ∃ m2 cs2, o.run nd m l = .ok m2 ∧ Updates m m2 l cs cs2 := by
  cases o with
  | pushFront x =>
    obtain ⟨m2, hrun, hup⟩ := pushFront_updates x h
    exact ⟨m2, _, hrun, hup⟩
  | insertAfter pos x =>
    obtain ⟨k, hk, rfl⟩ := hp
    obtain ⟨m2, hrun, hup⟩ := insertAfter_at nd x h k hk
    exact ⟨m2, _, by simp [Op.run, hrun], hup⟩
  | eraseAfter pos =>
    obtain ⟨k, hk, rfl⟩ := hp
    obtain ⟨m2, hrun, hup⟩ := eraseAfter_at nd h k hk
    exact ⟨m2, _, by simp [Op.run, hrun], hup⟩
  | popFront =>
    obtain ⟨hne, rfl⟩ := hp
    cases cs with
    | nil => exact absurd rfl hne
    | cons c rest =>
      obtain ⟨m2, hrun, hup⟩ := popFront_updates h
      exact ⟨m2, _, hrun, hup⟩
  | clear =>
    obtain ⟨m2, hrun, hup⟩ := clear_updates h
    exact ⟨m2, _, hrun, hup⟩

theorem isList_congr (m m2 : Machine α) {i j : Nat} {cs : List (Nat × α)}
    (hheap : m2.heap = m.heap) (hobj : m2.objs[j]? = m.objs[i]?) (h : IsList m i cs) :
    IsList m2 j cs := by
  obtain ⟨o, ho, hch, hsz⟩ := h
  exact ⟨o, by rw [hobj]; exact ho, by rw [hheap]; exact hch, hsz⟩

theorem inv_init (n : Nat) : Inv (⟨[], List.replicate n ⟨none, 0⟩⟩ : Machine α) := by
  have key : ∀ l cs, IsList (⟨[], List.replicate n ⟨none, 0⟩⟩ : Machine α) l cs → cs = [] := by
    intro l cs h
    obtain ⟨o, -, hch, -⟩ := h
    cases cs with
    | nil => rfl
    | cons c cs =>
      obtain ⟨-, nx, hcell, -⟩ := (chain_cons _ _ _ _).1 hch
      simp at hcell
  constructor
  · intro l hl
    refine ⟨[], ⟨none, 0⟩, ?_, by simp, rfl⟩
    simp only [List.length_replicate] at hl
    simp [List.getElem?_replicate, hl]
  · intro l j cs ds _ hl _ a ha
    rw [key l cs hl] at ha
    simp [addrs] at ha

theorem inv_op {m m2 : Machine α} {l : Nat} {cs cs2 : List (Nat × α)} (hinv : Inv m)
    (h : IsList m l cs) (hup : Updates m m2 l cs cs2) : Inv m2 := by
  obtain ⟨hall, hdis⟩ := hinv
  obtain ⟨hl2, hfp, hnew⟩ := hup
  have hlen := hfp.1
  have hframe : ∀ j ds, j ≠ l → IsList m j ds → IsList m2 j ds := by
    intro j ds hj hjl
    exact isList_frame hfp hjl hj (fun a ha hac => hdis j l ds cs hj hjl h a ha hac)
  have hback : ∀ j ds, j ≠ l → IsList m2 j ds → IsList m j ds := by
    intro j ds hj hjl
    obtain ⟨ds0, h0⟩ := hall j (by rw [← hlen]; exact isList_lt hjl)
    rw [isList_det hjl (hframe j ds0 hj h0)]
    exact h0
  have hcross : ∀ j ds, j ≠ l → IsList m2 j ds → ∀ a ∈ addrs cs2, a ∉ addrs ds := by
    intro j ds hj hjl a ha had
    have hj0 := hback j ds hj hjl
    rcases hnew a ha with hc | hc
    · exact hdis l j cs ds (Ne.symm hj) h hj0 a hc had
    · have := isList_addr_lt hj0 a had
      omega
  constructor
  · intro j hj
    by_cases hjl : j = l
    · subst hjl
      exact ⟨cs2, hl2⟩
    · obtain ⟨ds, hds⟩ := hall j (by rw [← hlen]; exact hj)
      exact ⟨ds, hframe j ds hjl hds⟩
  · intro i j ci cj hij hi hj a ha haj
    by_cases hil : i = l
    · subst hil
      rw [isList_det hi hl2] at ha
      exact hcross j cj (Ne.symm hij) hj a ha haj
    · by_cases hjl : j = l
      · subst hjl
        rw [isList_det hj hl2] at haj
        exact hcross i ci hil hi a haj ha
      · exact hdis i j ci cj hij (hback i ci hil hi) (hback j cj hjl hj) a ha haj

theorem inv_swap {m m2 : Machine α} {a b : Nat} (hinv : Inv m) (ha : a < m.objs.length)
    (hb : b < m.objs.length) (hrun : swap m a b = .ok m2) : Inv m2 := by
  obtain ⟨hall, hdis⟩ := hinv
  obtain ⟨oa, hoa⟩ : ∃ oa, m.objs[a]? = some oa := ⟨_, List.getElem?_eq_getElem ha⟩
  obtain ⟨ob, hob⟩ : ∃ ob, m.objs[b]? = some ob := ⟨_, List.getElem?_eq_getElem hb⟩
  rw [swap_ok hoa hob] at hrun
  cases hrun
  -- the object found at `j` after the swap is the object that was at `σ j`
  let σ : Nat → Nat := fun j => if j = b then a else if j = a then b else j
  have hσ : ∀ j, ((m.objs.set a ob).set b oa)[j]? = m.objs[σ j]? := by
    intro j
    by_cases hjb : j = b
    · have h1 : σ j = a := by simp [σ, hjb]
      rw [h1, hjb, List.getElem?_set_self (by simpa using hb), hoa]
    · by_cases hja : j = a
      · have h1 : σ j = b := by simp [σ, hjb, hja]
        rw [h1, List.getElem?_set_ne (Ne.symm hjb), hja, List.getElem?_set_self ha, hob]
      · have h1 : σ j = j := by simp [σ, hjb, hja]
        rw [h1, List.getElem?_set_ne (Ne.symm hjb), List.getElem?_set_ne (Ne.symm hja)]
  have hσlt : ∀ j, j < m.objs.length → σ j < m.objs.length := by
    intro j hj
    simp only [σ]
    split_ifs <;> assumption
  have hσinj : ∀ i j, i ≠ j → σ i ≠ σ j := by
    intro i j hij
    simp only [σ]
    split_ifs <;> omega
  have hto : ∀ j cs, IsList (⟨m.heap, (m.objs.set a ob).set b oa⟩ : Machine α) j cs →
      IsList m (σ j) cs := by
    intro j cs h
    exact isList_congr ⟨m.heap, (m.objs.set a ob).set b oa⟩ m rfl (hσ j).symm h
  constructor
  · intro j hj
    have hj0 : j < m.objs.length := by simpa using hj
    obtain ⟨cs, hcs⟩ := hall (σ j) (hσlt j hj0)
    exact ⟨cs, isList_congr m ⟨m.heap, (m.objs.set a ob).set b oa⟩ rfl (hσ j) hcs⟩
  · intro i j ci cj hij hi hj
    exact hdis (σ i) (σ j) ci cj (hσinj i j hij) (hto i ci hi) (hto j cj hj)

theorem inv_step (nd : Bool) {m m2 : Machine α} (c : Call α) (hinv : Inv m)
    (hp : c.Pre nd m) (hrun : c.run nd m = .ok m2) : Inv m2 := by
  cases c with
  | op l o =>
    obtain ⟨cs, hl, hpre⟩ := hp
    obtain ⟨m3, cs2, hrun3, hup⟩ := op_updates nd o hl hpre
    have : m3 = m2 := by
      have := hrun3.symm.trans hrun
      simpa using this
    subst this
    exact inv_op hinv hl hup
  | swap a b => exact inv_swap hinv hp.1 hp.2 hrun

theorem inv_of_reachable (nd : Bool) {m : Machine α} (h : Reachable nd m) : Inv m := by
  induction h with
  | init n => exact inv_init n
  | step c _ hp hrun ih => exact inv_step nd c ih hp hrun

/-- A call given its precondition returns. -/
theorem call_progress (nd : Bool) {m : Machine α} (c : Call α) (hp : c.Pre nd m) :
    ∃ m2, c.run nd m = .ok m2 := by
  cases c with
  | op l o =>
    obtain ⟨cs, hl, hpre⟩ := hp
    obtain ⟨m2, _, hrun, -⟩ := op_updates nd o hl hpre
    exact ⟨m2, hrun⟩
  | swap a b =>
    obtain ⟨oa, hoa⟩ : ∃ oa, m.objs[a]? = some oa := ⟨_, List.getElem?_eq_getElem hp.1⟩
    obtain ⟨ob, hob⟩ : ∃ ob, m.objs[b]? = some ob := ⟨_, List.getElem?_eq_getElem hp.2⟩
    exact ⟨_, swap_ok hoa hob⟩

end Sequences

/-! ## Assignment, emptiness and the branches of `InsertAfter` -/

section Assign

variable {α : Type}

theorem set_same {β : Type} : ∀ (l : List β) (i : Nat) (o : β), l[i]? = some o → l.set i o = l
  | [], _, _, _ => rfl
  | x :: xs, 0, o, h => by simp at h; simp [h]
  | x :: xs, i + 1, o, h => by
    simp at h
    simp [set_same xs i o h]

/-- `Clear()` on an empty list changes nothing. -/
theorem clear_empty {m : Machine α} {l : Nat} (h : IsList m l []) : Clear m l = .ok m := by
  obtain ⟨o, ho, hch, hsz⟩ := h
  have hp : o.head_next_node = none := by simpa using hch
  have ho0 : o = ⟨none, 0⟩ := by
    cases o
    simp_all
  subst ho0
  simp [Clear, Clear_loop, Machine.obj, ho, Machine.setObj, set_same _ _ _ ho]

/-- Copy assignment between two lists that share no node. -/
theorem operator_assign_updates (nd : Bool) {m : Machine α} {a b : Nat}
    {old cs : List (Nat × α)} (ha : IsList m a old) (hb : IsList m b cs) (hab : a ≠ b)
    (hdis : ∀ x ∈ addrs old, x ∉ addrs cs) :
    ∃ m3 new, operator_assign nd m a b = .ok m3 ∧ Updates m m3 a old new ∧
      new.map Prod.snd = cs.map Prod.snd ∧ IsList m3 b cs := by
  obtain ⟨m1, new, hrun, hup, hvals, -, -⟩ := construct_copy_spec nd hb
  obtain ⟨m3, hfin, hup3, -⟩ := init_finish ha hup
  refine ⟨m3, new, ?_, hup3, hvals, ?_⟩
  · simp only [operator_assign, if_neg hab, hrun, ok_bind]
    exact hfin
  · exact isList_frame hup3.2.1 hb (Ne.symm hab) (fun x hx hxo => hdis x hxo hx)

/-- At the sentinel the general branch of `InsertAfter` does what the special
branch does, on every store. -/
theorem splice_eq_front (m : Machine α) (this : Nat) (x : α) :
    InsertAfter_splice m this (before_begin this) x = InsertAfter_front m this x := by
  cases ho : m.objs[this]? with
  | none =>
    simp [InsertAfter_splice, InsertAfter_front, before_begin, target, Machine.next_node,
      Machine.obj, ho, PushFront]
  | some o =>
    have hl : this < m.objs.length := (List.getElem?_eq_some.1 ho).1
    simp [InsertAfter_splice, InsertAfter_front, before_begin, target, Machine.next_node,
      Machine.obj, ho, PushFront, Machine.new_Node, Machine.set_next_node, Machine.setObj,
      hl, begin_, ofLink, List.set_set]

end Assign

/-! ## The claims -/

section Claims

variable {α : Type}

theorem cursorAt_insert (l : Nat) (cs : List (Nat × α)) (c : Nat × α) (k : Nat)
    (hk : k ≤ cs.length) :
    cursorAt l (cs.take k ++ c :: cs.drop k) k = cursorAt l cs k ∧
    cursorAt l (cs.take k ++ c :: cs.drop k) (k + 1) = ⟨some (.node c.1)⟩ := by
  have hlen : (cs.take k).length = k := by rw [List.length_take]; omega
  constructor
  · cases k with
    | zero => rfl
    | succ k =>
      have hk2 : k < cs.length := hk
      simp only [cursorAt]
      rw [List.getElem?_append_left (by omega), List.getElem?_take_of_lt (by omega)]
  · simp only [cursorAt]
    rw [List.getElem?_append_right (by omega), hlen]
    simp

theorem cursorAt_erase (l : Nat) (cs : List (Nat × α)) (k : Nat) :
    cursorAt l (cs.eraseIdx k) k = cursorAt l cs k := by
  cases k with
  | zero => rfl
  | succ k =>
    simp only [cursorAt]
    rw [List.getElem?_eraseIdx]
    simp

/-- C1 (refuted by the code): `A == B` is `std::equal(A.begin(), A.end(),
B.begin())`, which never looks at the length of `B`.  On the lists `{1}` and
`{1, 2}` built by the initializer-list constructor, `==` is true and `!=` is
false although the sizes differ; with the operands exchanged the loop reads
through the end cursor of the shorter list and stops at the assertion of
`operator*`. -/
theorem C1_operator_eq_on_shorter_lhs :
    (do
      let (a, m1) ← construct_values false (⟨[], []⟩ : Machine Nat) [1]
      let (b, m2) ← construct_values false m1 [1, 2]
      let ea ← elements false m2 a
      let eb ← elements false m2 b
      let na ← GetSize m2 a
      let nb ← GetSize m2 b
      let eq ← operator_eq false m2 a b
      let ne ← operator_ne false m2 a b
      pure (ea, eb, na, nb, eq, ne)) = .ok ([1], [1, 2], 1, 2, true, false) ∧
    (do
      let (a, m1) ← construct_values false (⟨[], []⟩ : Machine Nat) [1]
      let (b, m2) ← construct_values false m1 [1, 2]
      operator_eq false m2 b a) = .error Fault.assertion := by
  decide

/-- C2: on any store and for any finite sequence `S`, the initializer-list
constructor (which runs `Init`) returns a new list; iterating it from `begin()`
to `end()` yields exactly `S` in the original order, and `GetSize()` is the
length of `S`. -/
theorem C2_construct_from_sequence (nd : Bool) (m : Machine α) (S : List α) :
    ∃ l m2, construct_values nd m S = .ok (l, m2) ∧ elements nd m2 l = .ok S ∧
      GetSize m2 l = .ok S.length := by
  obtain ⟨m2, new, hrun, hup, hvals, -⟩ := construct_values_spec nd m S
  refine ⟨_, m2, hrun, ?_, ?_⟩
  · rw [elements_of_isList nd hup.1, hvals]
  · rw [getSize_of_isList hup.1, ← hvals, List.length_map]

/-- C3 (refuted by the code): the guard of `PopFront` is
`assert(head_.next_node == nullptr)`, so in a build with assertions it fails on
every list whose head link is not null, that is on every non-empty list; the
list `{1}` built by the initializer-list constructor is one. -/
theorem C3_popFront_guard_fails_on_nonempty :
    (∀ (heap : List (Option (Node α))) (others : List SingleLinkedList) (a size : Nat),
      PopFront false ⟨heap, ⟨some a, size⟩ :: others⟩ 0 = .error Fault.assertion) ∧
    (do
      let (l, m) ← construct_values false (⟨[], []⟩ : Machine Nat) [1]
      PopFront false m l) = .error Fault.assertion := by
  refine ⟨?_, by decide⟩
  intro heap others a size
  simp [PopFront, Machine.obj, assert_]

/-- C4: on a non-empty list with nodes `c :: rest`, the body of `PopFront` run
without assertions (`NDEBUG`) returns, and leaves a list with nodes `rest`: its
element sequence is that of `rest` and `GetSize()` is one less than before. -/
theorem C4_popFront_removes_head (nd : Bool) (m : Machine α) (l : Nat) (c : Nat × α)
    (rest : List (Nat × α)) (h : IsList m l (c :: rest)) :
    ∃ m2, PopFront true m l = .ok m2 ∧ IsList m2 l rest ∧
      elements nd m l = .ok (c.2 :: rest.map Prod.snd) ∧
      elements nd m2 l = .ok (rest.map Prod.snd) ∧
      GetSize m l = .ok (rest.length + 1) ∧ GetSize m2 l = .ok rest.length := by
  obtain ⟨m2, hrun, hup⟩ := popFront_updates h
  exact ⟨m2, hrun, hup.1, by simpa using elements_of_isList nd h,
    elements_of_isList nd hup.1, by simpa using getSize_of_isList h, getSize_of_isList hup.1⟩

theorem C4_popFront_removes_head_witness :
    IsList (⟨[some ⟨7, some 1⟩, some ⟨8, none⟩], [⟨some 0, 2⟩]⟩ : Machine Nat) 0 [(0, 7), (1, 8)] ∧
    ∃ m2, PopFront true (⟨[some ⟨7, some 1⟩, some ⟨8, none⟩], [⟨some 0, 2⟩]⟩ : Machine Nat) 0
        = .ok m2 ∧ IsList m2 0 [(1, 8)] ∧
      elements false (⟨[some ⟨7, some 1⟩, some ⟨8, none⟩], [⟨some 0, 2⟩]⟩ : Machine Nat) 0
        = .ok (7 :: [(1, 8)].map Prod.snd) ∧
      elements false m2 0 = .ok ([(1, 8)].map Prod.snd) ∧
      GetSize (⟨[some ⟨7, some 1⟩, some ⟨8, none⟩], [⟨some 0, 2⟩]⟩ : Machine Nat) 0
        = .ok ([(1, 8)].length + 1) ∧ GetSize m2 0 = .ok [(1, 8)].length :=
  ⟨by simp [IsList, Chain],
    C4_popFront_removes_head false _ 0 (0, 7) [(1, 8)] (by simp [IsList, Chain])⟩

/-- C5: in every store reached from default-constructed lists by finitely many
calls of `PushFront`, `InsertAfter`, `EraseAfter`, `PopFront`, `Clear` and
`swap`, each given its documented precondition, every list can be iterated from
`begin()` to `end()` and `GetSize()` is the number of elements the iteration
reaches; and every further call given its precondition returns. -/
theorem C5_size_counts_reachable_nodes (nd : Bool) (m : Machine α) (h : Reachable nd m) :
    (∀ l, l < m.objs.length →
      ∃ vs, elements nd m l = .ok vs ∧ GetSize m l = .ok vs.length) ∧
    ∀ c : Call α, c.Pre nd m → ∃ m2, c.run nd m = .ok m2 ∧ Reachable nd m2 := by
  constructor
  · intro l hl
    obtain ⟨cs, hcs⟩ := (inv_of_reachable nd h).1 l hl
    exact ⟨cs.map Prod.snd, elements_of_isList nd hcs,
      by rw [getSize_of_isList hcs, List.length_map]⟩
  · intro c hp
    obtain ⟨m2, hrun⟩ := call_progress nd c hp
    exact ⟨m2, hrun, Reachable.step c h hp hrun⟩

theorem C5_size_counts_reachable_nodes_witness :
    Reachable true (⟨[some ⟨5, none⟩, none], [⟨none, 0⟩, ⟨some 0, 1⟩]⟩ : Machine Nat) ∧
    ((∀ l, l < 2 → ∃ vs,
        elements true (⟨[some ⟨5, none⟩, none], [⟨none, 0⟩, ⟨some 0, 1⟩]⟩ : Machine Nat) l
          = .ok vs ∧
        GetSize (⟨[some ⟨5, none⟩, none], [⟨none, 0⟩, ⟨some 0, 1⟩]⟩ : Machine Nat) l
          = .ok vs.length) ∧
      ∀ c : Call Nat,
        c.Pre true (⟨[some ⟨5, none⟩, none], [⟨none, 0⟩, ⟨some 0, 1⟩]⟩ : Machine Nat) →
        ∃ m2, c.run true (⟨[some ⟨5, none⟩, none], [⟨none, 0⟩, ⟨some 0, 1⟩]⟩ : Machine Nat)
          = .ok m2 ∧ Reachable true m2) := by
  have hreach : Reachable true
      (⟨[some ⟨5, none⟩, none], [⟨none, 0⟩, ⟨some 0, 1⟩]⟩ : Machine Nat) := by
    have h0 : Reachable true (⟨[], [⟨none, 0⟩, ⟨none, 0⟩]⟩ : Machine Nat) := Reachable.init 2
    have h1 : Reachable true (⟨[some ⟨5, none⟩], [⟨some 0, 1⟩, ⟨none, 0⟩]⟩ : Machine Nat) :=
      Reachable.step (.op 0 (.pushFront 5)) h0 ⟨[], by simp [IsList, Chain], trivial⟩ rfl
    have h2 : Reachable true
        (⟨[some ⟨5, none⟩, some ⟨6, some 0⟩], [⟨some 1, 2⟩, ⟨none, 0⟩]⟩ : Machine Nat) :=
      Reachable.step (.op 0 (.insertAfter (before_begin 0) 6)) h1
        ⟨[(0, 5)], by simp [IsList, Chain], 0, by decide, rfl⟩ rfl
    have h3 : Reachable true
        (⟨[some ⟨5, none⟩, none], [⟨some 0, 1⟩, ⟨none, 0⟩]⟩ : Machine Nat) :=
      Reachable.step (.op 0 .popFront) h2
        ⟨[(1, 6), (0, 5)], by simp [IsList, Chain], by simp, rfl⟩ rfl
    exact Reachable.step (.swap 0 1) h3 ⟨by decide, by decide⟩ rfl
  exact ⟨hreach, C5_size_counts_reachable_nodes true _ hreach⟩

/-- C6: the copy constructed from a list `A` is a new list with the element
sequence and the size of `A`, `copy == A` is true, and `A` is as before; and
every mutating member function (`PushFront`, `InsertAfter`, `EraseAfter`,
`PopFront`, `Clear`) applied to the copy with its documented precondition
returns and leaves the nodes, the element sequence and the size of `A` as they
were. -/
theorem C6_copy_is_independent [DecidableEq α] (nd : Bool) (m : Machine α) (A : Nat)
    (cs : List (Nat × α)) (hA : IsList m A cs) :
    ∃ c m1 cc, construct_copy nd m A = .ok (c, m1) ∧ c ≠ A ∧ IsList m1 c cc ∧
      elements nd m A = .ok (cs.map Prod.snd) ∧ GetSize m A = .ok cs.length ∧
      elements nd m1 c = .ok (cs.map Prod.snd) ∧ GetSize m1 c = .ok cs.length ∧
      elements nd m1 A = .ok (cs.map Prod.snd) ∧ GetSize m1 A = .ok cs.length ∧
      operator_eq nd m1 c A = .ok true ∧
      ∀ o : Op α, o.Pre nd c cc →
        ∃ m2, o.run nd m1 c = .ok m2 ∧ IsList m2 A cs ∧
          elements nd m2 A = .ok (cs.map Prod.snd) ∧ GetSize m2 A = .ok cs.length := by
  obtain ⟨m1, cc, hrun, hup, hvals, hfresh, hA1⟩ := construct_copy_spec nd hA
  have hne : m.objs.length ≠ A := Ne.symm (Nat.ne_of_lt (isList_lt hA))
  have hlenc : cc.length = cs.length := by
    have := congrArg List.length hvals
    simpa using this
  refine ⟨m.objs.length, m1, cc, hrun, hne, hup.1, elements_of_isList nd hA,
    getSize_of_isList hA, ?_, ?_, elements_of_isList nd hA1, getSize_of_isList hA1, ?_, ?_⟩
  · rw [elements_of_isList nd hup.1, hvals]
  · rw [getSize_of_isList hup.1, hlenc]
  · rw [operator_eq_isList nd hup.1 hA1, hvals, equal3_self]
  · intro o hp
    obtain ⟨m2, cs2, hrun2, -, hfp, -⟩ := op_updates nd o hup.1 hp
    have hA2 : IsList m2 A cs := by
      refine isList_frame hfp hA1 (Ne.symm hne) ?_
      intro a ha hac
      have h1 := isList_addr_lt hA a ha
      have h2 := hfresh a hac
      omega
    exact ⟨m2, hrun2, hA2, elements_of_isList nd hA2, getSize_of_isList hA2⟩

theorem C6_copy_is_independent_witness :
    IsList (⟨[some ⟨7, some 1⟩, some ⟨8, none⟩], [⟨some 0, 2⟩]⟩ : Machine Nat) 0 [(0, 7), (1, 8)] ∧
    ∃ c m1 cc,
      construct_copy true (⟨[some ⟨7, some 1⟩, some ⟨8, none⟩], [⟨some 0, 2⟩]⟩ : Machine Nat) 0
        = .ok (c, m1) ∧ c ≠ 0 ∧ IsList m1 c cc ∧
      elements true m1 c = .ok [7, 8] ∧ GetSize m1 c = .ok 2 ∧
      operator_eq true m1 c 0 = .ok true ∧
      ∀ o : Op Nat, o.Pre true c cc →
        ∃ m2, o.run true m1 c = .ok m2 ∧ elements true m2 0 = .ok [7, 8] ∧
          GetSize m2 0 = .ok 2 := by
  refine ⟨by simp [IsList, Chain], ?_⟩
  obtain ⟨c, m1, cc, h1, h2, h3, -, -, h4, h5, -, -, h6, h7⟩ :=
    C6_copy_is_independent true
      (⟨[some ⟨7, some 1⟩, some ⟨8, none⟩], [⟨some 0, 2⟩]⟩ : Machine Nat) 0 [(0, 7), (1, 8)]
      (by simp [IsList, Chain])
  refine ⟨c, m1, cc, h1, h2, h3, h4, h5, h6, ?_⟩
  intro o hp
  obtain ⟨m2, hr, -, he, hs⟩ := h7 o hp
  exact ⟨m2, hr, he, hs⟩

/-- C7: `InsertAfter(pos, x)` at position `k` of a list (`k = 0` is the
sentinel `before_begin()`, `k + 1` the `k`-th element) returns; the new list has
`x` right behind position `k` and all old elements around it in their old
order, `GetSize()` has grown by one, the returned cursor dereferences to `x` and
is what advancing `pos` once gives, and at the sentinel it is `begin()`. -/
theorem C7_insertAfter_at_position (nd : Bool) (m : Machine α) (l : Nat) (cs : List (Nat × α))
    (k : Nat) (x : α) (h : IsList m l cs) (hk : k ≤ cs.length) :
    ∃ it m2, InsertAfter nd m l (cursorAt l cs k) x = .ok (it, m2) ∧
      elements nd m l = .ok (cs.map Prod.snd) ∧
      elements nd m2 l = .ok ((cs.map Prod.snd).take k ++ x :: (cs.map Prod.snd).drop k) ∧
      GetSize m l = .ok cs.length ∧ GetSize m2 l = .ok (cs.length + 1) ∧
      it.operator_star nd m2 = .ok x ∧
      (cursorAt l cs k).operator_preinc nd m2 = .ok it ∧
      (k = 0 → begin_ m2 l = .ok it) := by
  obtain ⟨m2, hrun, hup⟩ := insertAfter_at nd x h k hk
  have hl2 := hup.1
  obtain ⟨hc1, hc2⟩ := cursorAt_insert l cs (m.heap.length, x) k hk
  have hadv := advance_cursorAt hl2 k (by simp; omega)
  rw [hc1, hc2] at hadv
  have hpre : (cursorAt l cs k).operator_preinc nd m2 =
      .ok ⟨some (.node m.heap.length)⟩ := by
    have hnn : (cursorAt l cs k).node_ ≠ none := by
      cases k with
      | zero => simp [cursorAt, before_begin]
      | succ k => rw [cursorAt_succ l (show k < cs.length from hk)]; simp
    simp [BasicIterator.operator_preinc, assert_, hnn, hadv]
  obtain ⟨o, -, hch, -⟩ := id hl2
  obtain ⟨q, -, hq⟩ := (chain_append_iff _ _ _ _).1 hch
  obtain ⟨-, nx, hcell, -⟩ := (chain_cons _ _ _ _).1 hq
  refine ⟨_, m2, hrun, elements_of_isList nd h, ?_, getSize_of_isList h, ?_,
    star_node nd hcell, hpre, ?_⟩
  · rw [elements_of_isList nd hl2]
    simp [List.map_take, List.map_drop]
  · rw [getSize_of_isList hl2]
    simp
    omega
  · rintro rfl
    have := advance_cursorAt hl2 0 (by simp)
    rw [hc2] at this
    simpa [cursorAt, before_begin, BasicIterator.advance, target, Machine.next_node, begin_]
      using this

theorem C7_insertAfter_at_position_witness :
    IsList (⟨[some ⟨7, some 1⟩, some ⟨8, none⟩], [⟨some 0, 2⟩]⟩ : Machine Nat) 0 [(0, 7), (1, 8)] ∧
    1 ≤ [(0, 7), (1, 8)].length ∧
    ∃ it m2, InsertAfter false (⟨[some ⟨7, some 1⟩, some ⟨8, none⟩], [⟨some 0, 2⟩]⟩ : Machine Nat)
        0 (cursorAt 0 [(0, 7), (1, 8)] 1) 9 = .ok (it, m2) ∧
      elements false (⟨[some ⟨7, some 1⟩, some ⟨8, none⟩], [⟨some 0, 2⟩]⟩ : Machine Nat) 0
        = .ok ([(0, 7), (1, 8)].map Prod.snd) ∧
      elements false m2 0 = .ok (([(0, 7), (1, 8)].map Prod.snd).take 1 ++
        9 :: ([(0, 7), (1, 8)].map Prod.snd).drop 1) ∧
      GetSize (⟨[some ⟨7, some 1⟩, some ⟨8, none⟩], [⟨some 0, 2⟩]⟩ : Machine Nat) 0
        = .ok [(0, 7), (1, 8)].length ∧
      GetSize m2 0 = .ok ([(0, 7), (1, 8)].length + 1) ∧
      it.operator_star false m2 = .ok 9 ∧
      (cursorAt 0 [(0, 7), (1, 8)] 1).operator_preinc false m2 = .ok it ∧
      (1 = 0 → begin_ m2 0 = .ok it) :=
  ⟨by simp [IsList, Chain], by decide,
    C7_insertAfter_at_position false _ 0 [(0, 7), (1, 8)] 1 9 (by simp [IsList, Chain])
      (by decide)⟩

/-- C8: `EraseAfter(pos)` at position `k` of a list, when a node follows that
position, returns; exactly the element behind position `k` is gone and the
others keep their order, `GetSize()` is one less, and the returned cursor is
what advancing `pos` once now gives, which is `end()` when nothing follows.
On `{1, 2, 3, 4}` at the cursor on value `2` the result is `{1, 2, 4}` with size
`3`, and `EraseAfter(before_begin())` on a one-element list leaves size `0`. -/
theorem C8_eraseAfter_at_position (nd : Bool) (m : Machine α) (l : Nat) (cs : List (Nat × α))
    (k : Nat) (h : IsList m l cs) (hk : k < cs.length) :
    (∃ it m2, EraseAfter nd m l (cursorAt l cs k) = .ok (it, m2) ∧
      elements nd m l = .ok (cs.map Prod.snd) ∧
      elements nd m2 l = .ok ((cs.map Prod.snd).eraseIdx k) ∧
      GetSize m l = .ok cs.length ∧ GetSize m2 l = .ok (cs.length - 1) ∧
      (cursorAt l cs k).operator_preinc nd m2 = .ok it ∧
      (k + 1 = cs.length → it = end_) ∧
      (∀ hk2 : k + 1 < cs.length, it.operator_star nd m2 = .ok cs[k + 1].2)) ∧
    (do
      let (a, m1) ← construct_values false (⟨[], []⟩ : Machine Nat) [1, 2, 3, 4]
      let b ← begin_ m1 a
      let pos ← b.operator_preinc false m1
      let v ← pos.operator_star false m1
      let (_, m2) ← EraseAfter false m1 a pos
      let e ← elements false m2 a
      let n ← GetSize m2 a
      pure (v, e, n)) = .ok (2, [1, 2, 4], 3) ∧
    (do
      let (a, m1) ← construct_values false (⟨[], []⟩ : Machine Nat) [5]
      let (it, m2) ← EraseAfter false m1 a (before_begin a)
      let n ← GetSize m2 a
      pure (it, n)) = .ok (end_, 0) := by
  refine ⟨?_, by decide, by decide⟩
  obtain ⟨m2, hrun, hup⟩ := eraseAfter_at nd h k hk
  have hl2 := hup.1
  have hlen : (cs.eraseIdx k).length = cs.length - 1 := List.length_eraseIdx_of_lt hk
  have hadv := advance_cursorAt hl2 k (by rw [hlen]; omega)
  rw [cursorAt_erase] at hadv
  have hpre : (cursorAt l cs k).operator_preinc nd m2 =
      .ok (cursorAt l (cs.eraseIdx k) (k + 1)) := by
    have hnn : (cursorAt l cs k).node_ ≠ none := by
      cases k with
      | zero => simp [cursorAt, before_begin]
      | succ k => rw [cursorAt_succ l (Nat.lt_of_succ_lt hk)]; simp
    simp [BasicIterator.operator_preinc, assert_, hnn, hadv]
  refine ⟨_, m2, hrun, elements_of_isList nd h, ?_, getSize_of_isList h, ?_, hpre, ?_, ?_⟩
  · rw [elements_of_isList nd hl2]
    rw [List.eraseIdx_eq_take_drop_succ, List.eraseIdx_eq_take_drop_succ]
    simp [List.map_take, List.map_drop]
  · rw [getSize_of_isList hl2, hlen]
  · intro hlast
    simp only [cursorAt, end_]
    rw [List.getElem?_eq_none (by rw [hlen]; omega)]
    rfl
  · intro hk2
    have hk3 : k < (cs.eraseIdx k).length := by rw [hlen]; omega
    obtain ⟨o, -, hch, -⟩ := id hl2
    obtain ⟨nx, hcell, -⟩ := chain_at k hk3 hch
    rw [cursorAt_succ l hk3]
    have hget : (cs.eraseIdx k)[k] = cs[k + 1] := by
      rw [List.getElem_eraseIdx_of_ge _ _ _ _ (le_refl k)]
    rw [star_node nd hcell, hget]

theorem C8_eraseAfter_at_position_witness :
    IsList (⟨[some ⟨7, some 1⟩, some ⟨8, none⟩], [⟨some 0, 2⟩]⟩ : Machine Nat) 0 [(0, 7), (1, 8)] ∧
    1 < [(0, 7), (1, 8)].length ∧
    ∃ it m2, EraseAfter false (⟨[some ⟨7, some 1⟩, some ⟨8, none⟩], [⟨some 0, 2⟩]⟩ : Machine Nat)
        0 (cursorAt 0 [(0, 7), (1, 8)] 1) = .ok (it, m2) ∧
      elements false m2 0 = .ok (([(0, 7), (1, 8)].map Prod.snd).eraseIdx 1) ∧
      GetSize m2 0 = .ok ([(0, 7), (1, 8)].length - 1) ∧ it = end_ := by
  refine ⟨by simp [IsList, Chain], by decide, ?_⟩
  obtain ⟨⟨it, m2, h1, -, h2, -, h3, -, h4, -⟩, -⟩ :=
    C8_eraseAfter_at_position false
      (⟨[some ⟨7, some 1⟩, some ⟨8, none⟩], [⟨some 0, 2⟩]⟩ : Machine Nat) 0 [(0, 7), (1, 8)] 1
      (by simp [IsList, Chain]) (by decide)
  exact ⟨it, m2, h1, h2, h3, h4 rfl⟩

/-- C9: on a linear order, `A < B` returns, and it is true exactly when the
element sequence of `A` is lexicographically less than that of `B` (a smaller
element at the first differing position, or a proper prefix).  In particular
`{1,2,3} < {1,2,4}`, `{1,2} < {1,2,3}`, `{} < {1}` and `{1,2,3} > {1,2}`. -/
theorem C9_operator_lt_is_lexicographic [LinearOrder α] (nd : Bool) (m : Machine α) (A B : Nat)
    (cs ds : List (Nat × α)) (hA : IsList m A cs) (hB : IsList m B ds) :
    (∃ r, operator_lt nd m A B = .ok r ∧
      (r = true ↔ LexLess (cs.map Prod.snd) (ds.map Prod.snd))) ∧
    (do
      let (a, m1) ← construct_values false (⟨[], []⟩ : Machine Nat) [1, 2, 3]
      let (b, m2) ← construct_values false m1 [1, 2, 4]
      operator_lt false m2 a b) = .ok true ∧
    (do
      let (a, m1) ← construct_values false (⟨[], []⟩ : Machine Nat) [1, 2]
      let (b, m2) ← construct_values false m1 [1, 2, 3]
      operator_lt false m2 a b) = .ok true ∧
    (do
      let (a, m1) ← construct_values false (⟨[], []⟩ : Machine Nat) []
      let (b, m2) ← construct_values false m1 [1]
      operator_lt false m2 a b) = .ok true ∧
    (do
      let (a, m1) ← construct_values false (⟨[], []⟩ : Machine Nat) [1, 2, 3]
      let (b, m2) ← construct_values false m1 [1, 2]
      operator_gt false m2 a b) = .ok true := by
  refine ⟨⟨_, operator_lt_isList nd hA hB, lexCompare_iff _ _⟩, ?_, ?_, ?_, ?_⟩ <;> decide

theorem C9_operator_lt_is_lexicographic_witness :
    IsList (⟨[some ⟨1, some 1⟩, some ⟨2, none⟩, some ⟨1, some 3⟩, some ⟨3, none⟩],
      [⟨some 0, 2⟩, ⟨some 2, 2⟩]⟩ : Machine Nat) 0 [(0, 1), (1, 2)] ∧
    IsList (⟨[some ⟨1, some 1⟩, some ⟨2, none⟩, some ⟨1, some 3⟩, some ⟨3, none⟩],
      [⟨some 0, 2⟩, ⟨some 2, 2⟩]⟩ : Machine Nat) 1 [(2, 1), (3, 3)] ∧
    ∃ r, operator_lt false (⟨[some ⟨1, some 1⟩, some ⟨2, none⟩, some ⟨1, some 3⟩, some ⟨3, none⟩],
        [⟨some 0, 2⟩, ⟨some 2, 2⟩]⟩ : Machine Nat) 0 1 = .ok r ∧
      (r = true ↔ LexLess ([(0, 1), (1, 2)].map Prod.snd) ([(2, 1), (3, 3)].map Prod.snd)) :=
  ⟨by simp [IsList, Chain], by simp [IsList, Chain],
    (C9_operator_lt_is_lexicographic false _ 0 1 [(0, 1), (1, 2)] [(2, 1), (3, 3)]
      (by simp [IsList, Chain]) (by simp [IsList, Chain])).1⟩

/-- C10: on a linear order all four ordering operators return, and `A > B` is
`B < A`, `A <= B` holds exactly when `A < B` or both lists have the same element
sequence, and `A >= B` holds exactly when `A > B` or both lists have the same
element sequence. -/
theorem C10_ordering_operators_agree [LinearOrder α] (nd : Bool) (m : Machine α) (A B : Nat)
    (cs ds : List (Nat × α)) (hA : IsList m A cs) (hB : IsList m B ds) :
    ∃ lt gt le ge, operator_lt nd m A B = .ok lt ∧ operator_gt nd m A B = .ok gt ∧
      operator_le nd m A B = .ok le ∧ operator_ge nd m A B = .ok ge ∧
      operator_lt nd m B A = .ok gt ∧
      (le = true ↔ (lt = true ∨ cs.map Prod.snd = ds.map Prod.snd)) ∧
      (ge = true ↔ (gt = true ∨ cs.map Prod.snd = ds.map Prod.snd)) := by
  have hlt := operator_lt_isList nd hA hB
  have hgt : operator_gt nd m A B = _ := (operator_gt_eq nd m A B).trans
    (operator_lt_isList nd hB hA)
  refine ⟨_, _, !(lexCompare (ds.map Prod.snd) (cs.map Prod.snd)),
    !(lexCompare (cs.map Prod.snd) (ds.map Prod.snd)), hlt, hgt, by simp [operator_le, hgt],
    by simp [operator_ge, hlt], operator_lt_isList nd hB hA, ?_, ?_⟩
  · rw [Bool.not_eq_true', lexCompare_not_iff]
  · rw [Bool.not_eq_true', lexCompare_not_iff]
    exact or_congr Iff.rfl eq_comm

theorem C10_ordering_operators_agree_witness :
    IsList (⟨[some ⟨1, some 1⟩, some ⟨2, none⟩, some ⟨1, some 3⟩, some ⟨3, none⟩],
      [⟨some 0, 2⟩, ⟨some 2, 2⟩]⟩ : Machine Nat) 0 [(0, 1), (1, 2)] ∧
    IsList (⟨[some ⟨1, some 1⟩, some ⟨2, none⟩, some ⟨1, some 3⟩, some ⟨3, none⟩],
      [⟨some 0, 2⟩, ⟨some 2, 2⟩]⟩ : Machine Nat) 1 [(2, 1), (3, 3)] ∧
    ∃ lt gt le ge,
      operator_lt false (⟨[some ⟨1, some 1⟩, some ⟨2, none⟩, some ⟨1, some 3⟩, some ⟨3, none⟩],
        [⟨some 0, 2⟩, ⟨some 2, 2⟩]⟩ : Machine Nat) 0 1 = .ok lt ∧
      operator_gt false (⟨[some ⟨1, some 1⟩, some ⟨2, none⟩, some ⟨1, some 3⟩, some ⟨3, none⟩],
        [⟨some 0, 2⟩, ⟨some 2, 2⟩]⟩ : Machine Nat) 0 1 = .ok gt ∧
      operator_le false (⟨[some ⟨1, some 1⟩, some ⟨2, none⟩, some ⟨1, some 3⟩, some ⟨3, none⟩],
        [⟨some 0, 2⟩, ⟨some 2, 2⟩]⟩ : Machine Nat) 0 1 = .ok le ∧
      operator_ge false (⟨[some ⟨1, some 1⟩, some ⟨2, none⟩, some ⟨1, some 3⟩, some ⟨3, none⟩],
        [⟨some 0, 2⟩, ⟨some 2, 2⟩]⟩ : Machine Nat) 0 1 = .ok ge ∧
      operator_lt false (⟨[some ⟨1, some 1⟩, some ⟨2, none⟩, some ⟨1, some 3⟩, some ⟨3, none⟩],
        [⟨some 0, 2⟩, ⟨some 2, 2⟩]⟩ : Machine Nat) 1 0 = .ok gt ∧
      (le = true ↔ (lt = true ∨
        [(0, 1), (1, 2)].map Prod.snd = [(2, 1), (3, 3)].map Prod.snd)) ∧
      (ge = true ↔ (gt = true ∨
        [(0, 1), (1, 2)].map Prod.snd = [(2, 1), (3, 3)].map Prod.snd)) :=
  ⟨by simp [IsList, Chain], by simp [IsList, Chain],
    C10_ordering_operators_agree false _ 0 1 [(0, 1), (1, 2)] [(2, 1), (3, 3)]
      (by simp [IsList, Chain]) (by simp [IsList, Chain])⟩

end Claims

section Claims5

variable {α : Type}

/-- C11: on a list that satisfies the size invariant, `IsEmpty()`,
`GetSize() == 0` and `begin() == end()` all return and are equivalent. -/
theorem C11_empty_conditions_agree (m : Machine α) (l : Nat) (cs : List (Nat × α))
    (h : IsList m l cs) :
    ∃ e n b, IsEmpty m l = .ok e ∧ GetSize m l = .ok n ∧ begin_ m l = .ok b ∧
      (e = true ↔ n = 0) ∧ (n = 0 ↔ b = end_) ∧ (e = true ↔ b = end_) := by
  obtain ⟨o, ho, hch, hsz⟩ := h
  refine ⟨o.head_next_node == none, o.size_, ⟨ofLink o.head_next_node⟩,
    by simp [IsEmpty, Machine.obj, ho], by simp [GetSize, Machine.obj, ho],
    by simp [begin_, Machine.obj, ho], ?_⟩
  cases cs with
  | nil =>
    have hp : o.head_next_node = none := by simpa using hch
    simp [hp, hsz, ofLink, end_]
  | cons c cs =>
    have hp := ((chain_cons _ _ _ _).1 hch).1
    simp [hp, hsz, ofLink, end_]

theorem C11_empty_conditions_agree_witness :
    IsList (⟨[some ⟨7, some 1⟩, some ⟨8, none⟩], [⟨some 0, 2⟩]⟩ : Machine Nat) 0 [(0, 7), (1, 8)] ∧
    ∃ e n b,
      IsEmpty (⟨[some ⟨7, some 1⟩, some ⟨8, none⟩], [⟨some 0, 2⟩]⟩ : Machine Nat) 0 = .ok e ∧
      GetSize (⟨[some ⟨7, some 1⟩, some ⟨8, none⟩], [⟨some 0, 2⟩]⟩ : Machine Nat) 0 = .ok n ∧
      begin_ (⟨[some ⟨7, some 1⟩, some ⟨8, none⟩], [⟨some 0, 2⟩]⟩ : Machine Nat) 0 = .ok b ∧
      (e = true ↔ n = 0) ∧ (n = 0 ↔ b = end_) ∧ (e = true ↔ b = end_) :=
  ⟨by simp [IsList, Chain],
    C11_empty_conditions_agree _ 0 [(0, 7), (1, 8)] (by simp [IsList, Chain])⟩

/-- C12: `A.swap(B)` returns, and afterwards `A` has the element sequence and
the size that `B` had before the call, and `B` those that `A` had. -/
theorem C12_swap_exchanges_contents (nd : Bool) (m : Machine α) (A B : Nat)
    (cs ds : List (Nat × α)) (hA : IsList m A cs) (hB : IsList m B ds) :
    ∃ m2, swap m A B = .ok m2 ∧
      elements nd m A = .ok (cs.map Prod.snd) ∧ GetSize m A = .ok cs.length ∧
      elements nd m B = .ok (ds.map Prod.snd) ∧ GetSize m B = .ok ds.length ∧
      elements nd m2 A = .ok (ds.map Prod.snd) ∧ GetSize m2 A = .ok ds.length ∧
      elements nd m2 B = .ok (cs.map Prod.snd) ∧ GetSize m2 B = .ok cs.length := by
  obtain ⟨m2, hrun, -, -, -, hA2, hB2⟩ := swap_isList hA hB
  exact ⟨m2, hrun, elements_of_isList nd hA, getSize_of_isList hA, elements_of_isList nd hB,
    getSize_of_isList hB, elements_of_isList nd hA2, getSize_of_isList hA2,
    elements_of_isList nd hB2, getSize_of_isList hB2⟩

theorem C12_swap_exchanges_contents_witness :
    IsList (⟨[some ⟨1, some 1⟩, some ⟨2, none⟩, some ⟨3, none⟩],
      [⟨some 0, 2⟩, ⟨some 2, 1⟩]⟩ : Machine Nat) 0 [(0, 1), (1, 2)] ∧
    IsList (⟨[some ⟨1, some 1⟩, some ⟨2, none⟩, some ⟨3, none⟩],
      [⟨some 0, 2⟩, ⟨some 2, 1⟩]⟩ : Machine Nat) 1 [(2, 3)] ∧
    ∃ m2, swap (⟨[some ⟨1, some 1⟩, some ⟨2, none⟩, some ⟨3, none⟩],
        [⟨some 0, 2⟩, ⟨some 2, 1⟩]⟩ : Machine Nat) 0 1 = .ok m2 ∧
      elements false m2 0 = .ok [3] ∧ GetSize m2 0 = .ok 1 ∧
      elements false m2 1 = .ok [1, 2] ∧ GetSize m2 1 = .ok 2 := by
  refine ⟨by simp [IsList, Chain], by simp [IsList, Chain], ?_⟩
  obtain ⟨m2, h1, -, -, -, -, h2, h3, h4, h5⟩ :=
    C12_swap_exchanges_contents false
      (⟨[some ⟨1, some 1⟩, some ⟨2, none⟩, some ⟨3, none⟩],
        [⟨some 0, 2⟩, ⟨some 2, 1⟩]⟩ : Machine Nat) 0 1 [(0, 1), (1, 2)] [(2, 3)]
      (by simp [IsList, Chain]) (by simp [IsList, Chain])
  exact ⟨m2, h1, h2, h3, h4, h5⟩

/-- C13: the self-assignment `a = a` returns at once with the store as it was,
on every store: the element sequence and the size of `a` are as before. -/
theorem C13_self_assignment_changes_nothing (nd : Bool) (m : Machine α) (a : Nat) :
    ∃ m2, operator_assign nd m a a = .ok m2 ∧ m2 = m ∧
      elements nd m2 a = elements nd m a ∧ GetSize m2 a = GetSize m a :=
  ⟨m, by simp [operator_assign], rfl, rfl, rfl⟩

/-- C14: for two distinct lists `a` and `b` (distinct objects that share no
node), the copy assignment `a = b` returns; afterwards `a` has the element
sequence and the size of `b`, and `b` has the nodes, the element sequence and
the size it had, whatever `a` held before. -/
theorem C14_copy_assignment (nd : Bool) (m : Machine α) (a b : Nat)
    (old cs : List (Nat × α)) (ha : IsList m a old) (hb : IsList m b cs) (hab : a ≠ b)
    (hdis : ∀ x ∈ addrs old, x ∉ addrs cs) :
    ∃ m2, operator_assign nd m a b = .ok m2 ∧
      elements nd m b = .ok (cs.map Prod.snd) ∧ GetSize m b = .ok cs.length ∧
      elements nd m2 a = .ok (cs.map Prod.snd) ∧ GetSize m2 a = .ok cs.length ∧
      IsList m2 b cs ∧
      elements nd m2 b = .ok (cs.map Prod.snd) ∧ GetSize m2 b = .ok cs.length := by
  obtain ⟨m2, new, hrun, hup, hvals, hb2⟩ := operator_assign_updates nd ha hb hab hdis
  have hlen : new.length = cs.length := by
    have := congrArg List.length hvals
    simpa using this
  refine ⟨m2, hrun, elements_of_isList nd hb, getSize_of_isList hb, ?_, ?_, hb2,
    elements_of_isList nd hb2, getSize_of_isList hb2⟩
  · rw [elements_of_isList nd hup.1, hvals]
  · rw [getSize_of_isList hup.1, hlen]

theorem C14_copy_assignment_witness :
    IsList (⟨[some ⟨1, some 1⟩, some ⟨2, none⟩, some ⟨3, none⟩],
      [⟨some 0, 2⟩, ⟨some 2, 1⟩]⟩ : Machine Nat) 0 [(0, 1), (1, 2)] ∧
    IsList (⟨[some ⟨1, some 1⟩, some ⟨2, none⟩, some ⟨3, none⟩],
      [⟨some 0, 2⟩, ⟨some 2, 1⟩]⟩ : Machine Nat) 1 [(2, 3)] ∧
    (0 : Nat) ≠ 1 ∧ (∀ x ∈ addrs [(0, 1), (1, 2)], x ∉ addrs [(2, 3)]) ∧
    ∃ m2, operator_assign false (⟨[some ⟨1, some 1⟩, some ⟨2, none⟩, some ⟨3, none⟩],
        [⟨some 0, 2⟩, ⟨some 2, 1⟩]⟩ : Machine Nat) 0 1 = .ok m2 ∧
      elements false m2 0 = .ok [3] ∧ GetSize m2 0 = .ok 1 ∧
      elements false m2 1 = .ok [3] ∧ GetSize m2 1 = .ok 1 := by
  refine ⟨by simp [IsList, Chain], by simp [IsList, Chain], by decide, by simp [addrs], ?_⟩
  obtain ⟨m2, h1, -, -, h2, h3, -, h4, h5⟩ :=
    C14_copy_assignment false
      (⟨[some ⟨1, some 1⟩, some ⟨2, none⟩, some ⟨3, none⟩],
        [⟨some 0, 2⟩, ⟨some 2, 1⟩]⟩ : Machine Nat) 0 1 [(0, 1), (1, 2)] [(2, 3)]
      (by simp [IsList, Chain]) (by simp [IsList, Chain]) (by decide) (by simp [addrs])
  exact ⟨m2, h1, h2, h3, h4, h5⟩

/-- C15: `Clear()` on a list returns and leaves the empty state (`GetSize()` is
`0`, `IsEmpty()` is true, `begin() == end()`, no node), and a second `Clear()`
returns with the very same store. -/
theorem C15_clear_empties_and_is_idempotent (nd : Bool) (m : Machine α) (l : Nat)
    (cs : List (Nat × α)) (h : IsList m l cs) :
    ∃ m2, Clear m l = .ok m2 ∧ GetSize m2 l = .ok 0 ∧ IsEmpty m2 l = .ok true ∧
      begin_ m2 l = .ok end_ ∧ elements nd m2 l = .ok [] ∧ Clear m2 l = .ok m2 := by
  obtain ⟨m2, hrun, hl2, -, -⟩ := clear_updates h
  obtain ⟨o, ho, hch, hsz⟩ := id hl2
  have hp : o.head_next_node = none := by simpa using hch
  refine ⟨m2, hrun, getSize_of_isList hl2, by simp [IsEmpty, Machine.obj, ho, hp],
    by simp [begin_, Machine.obj, ho, hp, ofLink, end_], by simpa using elements_of_isList nd hl2,
    clear_empty hl2⟩

theorem C15_clear_empties_and_is_idempotent_witness :
    IsList (⟨[some ⟨7, some 1⟩, some ⟨8, none⟩], [⟨some 0, 2⟩]⟩ : Machine Nat) 0 [(0, 7), (1, 8)] ∧
    ∃ m2, Clear (⟨[some ⟨7, some 1⟩, some ⟨8, none⟩], [⟨some 0, 2⟩]⟩ : Machine Nat) 0 = .ok m2 ∧
      GetSize m2 0 = .ok 0 ∧ IsEmpty m2 0 = .ok true ∧ begin_ m2 0 = .ok end_ ∧
      elements false m2 0 = .ok [] ∧ Clear m2 0 = .ok m2 :=
  ⟨by simp [IsList, Chain],
    C15_clear_empties_and_is_idempotent false _ 0 [(0, 7), (1, 8)] (by simp [IsList, Chain])⟩

/-- C16: `PushFront(x)` on a list with element sequence `L` returns and leaves
the element sequence `x :: L`, and `GetSize()` has grown by one. -/
theorem C16_pushFront_prepends (nd : Bool) (m : Machine α) (l : Nat) (cs : List (Nat × α))
    (x : α) (h : IsList m l cs) :
    ∃ m2, PushFront m l x = .ok m2 ∧
      elements nd m l = .ok (cs.map Prod.snd) ∧ GetSize m l = .ok cs.length ∧
      elements nd m2 l = .ok (x :: cs.map Prod.snd) ∧ GetSize m2 l = .ok (cs.length + 1) := by
  obtain ⟨m2, hrun, hup⟩ := pushFront_updates x h
  exact ⟨m2, hrun, elements_of_isList nd h, getSize_of_isList h,
    by simpa using elements_of_isList nd hup.1, by simpa using getSize_of_isList hup.1⟩

theorem C16_pushFront_prepends_witness :
    IsList (⟨[some ⟨7, some 1⟩, some ⟨8, none⟩], [⟨some 0, 2⟩]⟩ : Machine Nat) 0 [(0, 7), (1, 8)] ∧
    ∃ m2, PushFront (⟨[some ⟨7, some 1⟩, some ⟨8, none⟩], [⟨some 0, 2⟩]⟩ : Machine Nat) 0 9
        = .ok m2 ∧
      elements false (⟨[some ⟨7, some 1⟩, some ⟨8, none⟩], [⟨some 0, 2⟩]⟩ : Machine Nat) 0
        = .ok ([(0, 7), (1, 8)].map Prod.snd) ∧
      GetSize (⟨[some ⟨7, some 1⟩, some ⟨8, none⟩], [⟨some 0, 2⟩]⟩ : Machine Nat) 0
        = .ok [(0, 7), (1, 8)].length ∧
      elements false m2 0 = .ok (9 :: [(0, 7), (1, 8)].map Prod.snd) ∧
      GetSize m2 0 = .ok ([(0, 7), (1, 8)].length + 1) :=
  ⟨by simp [IsList, Chain],
    C16_pushFront_prepends false _ 0 [(0, 7), (1, 8)] 9 (by simp [IsList, Chain])⟩

/-- C17 (refuted by the code): only `operator++()` asserts `node_ != nullptr`.
On a cursor that references no node, in a build with assertions, the
pre-increment stops at its assertion, while the post-increment `operator++(int)`
has no assertion and dereferences the null `node_`.  On the first cursor of the
list `{4, 5}` both variants move to the next node and the post-increment
returns the old position. -/
theorem C17_postincrement_has_no_assertion :
    (∀ m : Machine α, BasicIterator.operator_preinc false m ⟨none⟩ = .error Fault.assertion) ∧
    (∀ m : Machine α, BasicIterator.operator_postinc m ⟨none⟩ = .error Fault.null) ∧
    (do
      let (l, m) ← construct_values false (⟨[], []⟩ : Machine Nat) [4, 5]
      let b ← begin_ m l
      let pre ← b.operator_preinc false m
      let (old, post) ← b.operator_postinc m
      let v ← pre.operator_star false m
      pure (decide (old = b), decide (post = pre), v)) = .ok (true, true, 5) := by
  refine ⟨?_, ?_, by decide⟩
  · intro m
    simp [BasicIterator.operator_preinc, assert_]
  · intro m
    simp [BasicIterator.operator_postinc, BasicIterator.advance, target]

/-- C18 (refuted by the code): when `A` has more elements than `B` and `B` is a
beginning of `A`, `A == B` reads through the end cursor of `B`.  On `{1, 2}`
and `{1}` the comparison stops at the assertion of `operator*` in a build with
assertions, and dereferences the null `node_` in a build without. -/
theorem C18_operator_eq_reads_past_shorter_rhs :
    (do
      let (a, m1) ← construct_values false (⟨[], []⟩ : Machine Nat) [1, 2]
      let (b, m2) ← construct_values false m1 [1]
      operator_eq false m2 a b) = .error Fault.assertion ∧
    (do
      let (a, m1) ← construct_values true (⟨[], []⟩ : Machine Nat) [1, 2]
      let (b, m2) ← construct_values true m1 [1]
      operator_eq true m2 a b) = .error Fault.null ∧
    (do
      let (a, m1) ← construct_values false (⟨[], []⟩ : Machine Nat) [1]
      let (b, m2) ← construct_values false m1 []
      operator_eq false m2 a b) = .error Fault.assertion := by
  decide

/-- C19: on every store, `InsertAfter` is its guard followed by the general
splice branch at a cursor other than the sentinel and by the special branch at
the sentinel; at `pos = before_begin()` the general branch gives the same store
and the same cursor as the special branch; and `InsertAfter(before_begin(), x)`
leaves the store that `PushFront(x)` leaves. -/
theorem C19_insertAfter_branches_agree (nd : Bool) (m : Machine α) (this : Nat) (x : α) :
    (∀ pos : BasicIterator, InsertAfter nd m this pos x =
      (assert_ nd (pos.node_ != none) >>= fun _ =>
        if pos ≠ before_begin this then InsertAfter_splice m this pos x
        else InsertAfter_front m this x)) ∧
    InsertAfter nd m this (before_begin this) x = InsertAfter_front m this x ∧
    InsertAfter_splice m this (before_begin this) x = InsertAfter_front m this x ∧
    Prod.snd <$> InsertAfter nd m this (before_begin this) x = PushFront m this x ∧
    Prod.snd <$> InsertAfter_splice m this (before_begin this) x = PushFront m this x := by
  have hfront : InsertAfter nd m this (before_begin this) x = InsertAfter_front m this x := by
    simp [InsertAfter, InsertAfter_front, assert_, before_begin]
  have hpush : Prod.snd <$> InsertAfter_front m this x = PushFront m this x := by
    cases ho : m.objs[this]? with
    | none => simp [InsertAfter_front, PushFront, Machine.obj, ho]
    | some o =>
      have hl : this < m.objs.length := (List.getElem?_eq_some.1 ho).1
      simp [InsertAfter_front, PushFront, Machine.obj, ho, Machine.new_Node, Machine.setObj,
        begin_, hl]
  refine ⟨?_, hfront, splice_eq_front m this x, by rw [hfront, hpush],
    by rw [splice_eq_front, hpush]⟩
  intro pos
  by_cases hpos : pos ≠ before_begin this
  · simp only [InsertAfter, InsertAfter_splice, if_pos hpos]
  · simp only [InsertAfter, InsertAfter_front, if_neg hpos]

/-- C20 (refuted as stated): the guard `pos.node_ != nullptr` is not enough.  On
the list `{1}` the cursor `begin()` on its last element passes the guard, and so
does `before_begin()` of an empty list; in both cases the body dereferences the
null link `before->next_node`. -/
theorem C20_eraseAfter_guard_not_sufficient :
    (do
      let (l, m) ← construct_values false (⟨[], []⟩ : Machine Nat) [1]
      let pos ← begin_ m l
      let guard ← assert_ false (pos.node_ != none)
      let r ← EraseAfter false m l pos
      pure (guard, r)) = .error Fault.null ∧
    (do
      let (l, m) ← construct_values false (⟨[], []⟩ : Machine Nat) []
      let guard ← assert_ false ((before_begin l).node_ != none)
      let r ← EraseAfter false m l (before_begin l)
      pure (guard, r)) = .error Fault.null := by
  decide

/-- C20 (amended): at a position of the list that has a following node,
`EraseAfter(pos)` returns, so no null link is accessed; at the last position
(the last element, or the sentinel of an empty list) the cursor passes the
guard and the body dereferences the null link `before->next_node`. -/
theorem C20_eraseAfter_needs_following_node (nd : Bool) (m : Machine α) (l : Nat)
    (cs : List (Nat × α)) (k : Nat) (h : IsList m l cs) (hk : k ≤ cs.length) :
    assert_ nd ((cursorAt l cs k).node_ != none) = .ok () ∧
    (k < cs.length → ∃ it m2, EraseAfter nd m l (cursorAt l cs k) = .ok (it, m2)) ∧
    (k = cs.length → EraseAfter nd m l (cursorAt l cs k) = .error Fault.null) := by
  have hnn : (cursorAt l cs k).node_ ≠ none := by
    cases k with
    | zero => simp [cursorAt, before_begin]
    | succ k => rw [cursorAt_succ l (show k < cs.length from hk)]; simp
  refine ⟨by simp [assert_, hnn], ?_, ?_⟩
  · intro hlt
    obtain ⟨m2, hrun, -⟩ := eraseAfter_at nd h k hlt
    exact ⟨_, m2, hrun⟩
  · intro hlast
    obtain ⟨o, ho, hch, -⟩ := h
    cases k with
    | zero =>
      have hnil : cs = [] := List.length_eq_zero.1 hlast.symm
      subst hnil
      have hp : o.head_next_node = none := by simpa using hch
      simp [EraseAfter, assert_, cursorAt, before_begin, target, Machine.next_node,
        Machine.obj, ho, hp, ofLink]
    | succ k =>
      have hk2 : k < cs.length := hk
      obtain ⟨nx, hcell, hrest⟩ := chain_at k hk2 hch
      rw [List.drop_of_length_le (by omega)] at hrest
      have hnx : nx = none := by simpa using hrest
      rw [cursorAt_succ l hk2]
      simp [EraseAfter, assert_, target, Machine.next_node, Machine.load, hcell, hnx, ofLink]

theorem C20_eraseAfter_needs_following_node_witness :
    IsList (⟨[some ⟨7, some 1⟩, some ⟨8, none⟩], [⟨some 0, 2⟩]⟩ : Machine Nat) 0 [(0, 7), (1, 8)] ∧
    1 ≤ [(0, 7), (1, 8)].length ∧
    assert_ false ((cursorAt 0 [(0, 7), (1, 8)] 1).node_ != none) = .ok () ∧
    (1 < [(0, 7), (1, 8)].length → ∃ it m2,
      EraseAfter false (⟨[some ⟨7, some 1⟩, some ⟨8, none⟩], [⟨some 0, 2⟩]⟩ : Machine Nat) 0
        (cursorAt 0 [(0, 7), (1, 8)] 1) = .ok (it, m2)) ∧
    (1 = [(0, 7), (1, 8)].length →
      EraseAfter false (⟨[some ⟨7, some 1⟩, some ⟨8, none⟩], [⟨some 0, 2⟩]⟩ : Machine Nat) 0
        (cursorAt 0 [(0, 7), (1, 8)] 1) = .error Fault.null) :=
  ⟨by simp [IsList, Chain], by decide,
    C20_eraseAfter_needs_following_node false
      (⟨[some ⟨7, some 1⟩, some ⟨8, none⟩], [⟨some 0, 2⟩]⟩ : Machine Nat) 0 [(0, 7), (1, 8)] 1
      (by simp [IsList, Chain]) (by decide)⟩

end Claims5

end SLL
